import Mathlib

/-!
Verification of the 9S storage core of beewallet-core-spark.

This file gives a shallow embedding, in Lean, of the data model and the
operations of the repository's 9S protocol layer (scrolls, JSON patches,
the path grammar, the mount kernel, the memory and file backends, the
git-like store, sealed scrolls and the vault rate limiter), and proves or
refutes the frozen claims about them.

Modelling conventions, used consistently below:
- serde_json values (with the default BTreeMap object representation,
  ordered by byte-lexicographic key order, which on UTF-8 strings agrees
  with code-point order) are embedded as the inductive type JValue, whose
  objects are key-sorted association lists.
- Machine integers are Nat or Int; byte strings are List Nat.
- SHA-256 (crate sha2) and the serde_json text serializer are external
  library functions; the definitions that call them take them as explicit
  function parameters, since no claim depends on their output beyond
  determinism.
- AES-256-GCM and Argon2id (crates aes_gcm, argon2) are external crates;
  they are modelled ideally and symbolically: a ciphertext records the key
  and the plaintext it was sealed with, decryption succeeds exactly under
  the sealing key, and key derivation is an injective constructor.
- Wall-clock time is passed in explicitly as a parameter.
- Rust str helpers (split, replace, starts_with, parse) are re-implemented
  below on character lists with the same semantics, so that proofs can
  reason about them directly.
-/

namespace NineS

/-! ## String utilities (models of Rust str helpers) -/

/-- Model of Rust str::starts_with. -/
def strStartsWith (s p : String) : Bool := p.data.isPrefixOf s.data

/-- Split a character list at every occurrence of the separator, keeping
empty pieces, with the same semantics as Rust str::split(char). -/
def splitOnCharList (c : Char) : List Char → List (List Char)
  | [] => [[]]
  | x :: xs =>
    let r := splitOnCharList c xs
    if x = c then [] :: r
    else match r with
      | [] => [[x]]
      | hd :: tl => (x :: hd) :: tl

/-- Model of Rust str::split(char) on strings. -/
def strSplitOnChar (c : Char) (s : String) : List String :=
  (splitOnCharList c s.data).map String.mk

/-- Replace every non-overlapping occurrence of pat, scanning left to
right, with the same semantics as Rust str::replace. -/
def replaceList (pat rep : List Char) : List Char → List Char
  | [] => []
  | x :: xs =>
    if pat ≠ [] ∧ pat.isPrefixOf (x :: xs) then
      rep ++ replaceList pat rep ((x :: xs).drop pat.length)
    else
      x :: replaceList pat rep xs
termination_by l => l.length
decreasing_by
  · rename_i h
    have hpos : 0 < pat.length := List.length_pos.mpr h.1
    simp
    omega
  · simp

/-- Model of Rust str::replace on strings. -/
def strReplace (s pat rep : String) : String :=
  String.mk (replaceList pat.data rep.data s.data)

/-- Model of Rust str::parse::<usize> (optional leading plus sign, then at
least one ASCII digit). -/
def parseUsize (s : String) : Option Nat :=
  let l := if s.data.head? = some '+' then s.data.tail else s.data
  if l ≠ [] ∧ l.all Char.isDigit then
    some (l.foldl (fun acc c => acc * 10 + (c.toNat - 48)) 0)
  else none

/-- Strict code-point lexicographic order on character lists; on UTF-8
data this coincides with the byte order Rust's BTreeMap of Strings uses. -/
def charListLt : List Char → List Char → Bool
  | [], [] => false
  | [], _ :: _ => true
  | _ :: _, [] => false
  | x :: xs, y :: ys =>
    if x.toNat < y.toNat then true
    else if x.toNat = y.toNat then charListLt xs ys
    else false

/-- Strict order on strings, modelling Rust's Ord for String. -/
def strLt (a b : String) : Bool := charListLt a.data b.data

/-! ## JSON values (serde_json::Value with BTreeMap objects) -/

/-- serde_json::Value. Numbers are modelled as integers; no claim in this
development depends on float-valued JSON numbers. Objects are association
lists that the operations below keep sorted by strLt, mirroring BTreeMap. -/
inductive JValue where
  | null
  | bool (b : Bool)
  | num (n : Int)
  | str (s : String)
  | arr (elems : List JValue)
  | obj (fields : List (String × JValue))
deriving Repr

mutual
/-- Decidable structural equality for JValue (serde_json Value PartialEq). -/
def jdec : (a b : JValue) → Decidable (a = b)
  | .null, .null => isTrue rfl
  | .bool x, .bool y => decidable_of_iff (x = y) (by simp)
  | .num x, .num y => decidable_of_iff (x = y) (by simp)
  | .str x, .str y => decidable_of_iff (x = y) (by simp)
  | .arr xs, .arr ys =>
    match jdecL xs ys with
    | isTrue h => isTrue (by rw [h])
    | isFalse h => isFalse (by simpa using h)
  | .obj xs, .obj ys =>
    match jdecF xs ys with
    | isTrue h => isTrue (by rw [h])
    | isFalse h => isFalse (by simpa using h)
  | .null, .bool _ => isFalse (by simp)
  | .null, .num _ => isFalse (by simp)
  | .null, .str _ => isFalse (by simp)
  | .null, .arr _ => isFalse (by simp)
  | .null, .obj _ => isFalse (by simp)
  | .bool _, .null => isFalse (by simp)
  | .bool _, .num _ => isFalse (by simp)
  | .bool _, .str _ => isFalse (by simp)
  | .bool _, .arr _ => isFalse (by simp)
  | .bool _, .obj _ => isFalse (by simp)
  | .num _, .null => isFalse (by simp)
  | .num _, .bool _ => isFalse (by simp)
  | .num _, .str _ => isFalse (by simp)
  | .num _, .arr _ => isFalse (by simp)
  | .num _, .obj _ => isFalse (by simp)
  | .str _, .null => isFalse (by simp)
  | .str _, .bool _ => isFalse (by simp)
  | .str _, .num _ => isFalse (by simp)
  | .str _, .arr _ => isFalse (by simp)
  | .str _, .obj _ => isFalse (by simp)
  | .arr _, .null => isFalse (by simp)
  | .arr _, .bool _ => isFalse (by simp)
  | .arr _, .num _ => isFalse (by simp)
  | .arr _, .str _ => isFalse (by simp)
  | .arr _, .obj _ => isFalse (by simp)
  | .obj _, .null => isFalse (by simp)
  | .obj _, .bool _ => isFalse (by simp)
  | .obj _, .num _ => isFalse (by simp)
  | .obj _, .str _ => isFalse (by simp)
  | .obj _, .arr _ => isFalse (by simp)
termination_by a _ => sizeOf a
decreasing_by all_goals (simp <;> omega)
def jdecL : (xs ys : List JValue) → Decidable (xs = ys)
  | [], [] => isTrue rfl
  | [], _ :: _ => isFalse (by simp)
  | _ :: _, [] => isFalse (by simp)
  | x :: xs, y :: ys =>
    match jdec x y, jdecL xs ys with
    | isTrue h1, isTrue h2 => isTrue (by rw [h1, h2])
    | isFalse h1, _ => isFalse (by simp [h1])
    | _, isFalse h2 => isFalse (by simp [h2])
termination_by xs _ => sizeOf xs
decreasing_by all_goals (simp <;> omega)
def jdecF : (xs ys : List (String × JValue)) → Decidable (xs = ys)
  | [], [] => isTrue rfl
  | [], _ :: _ => isFalse (by simp)
  | _ :: _, [] => isFalse (by simp)
  | (k, v) :: xs, (k', v') :: ys =>
    match String.decEq k k', jdec v v', jdecF xs ys with
    | isTrue h0, isTrue h1, isTrue h2 => isTrue (by rw [h0, h1, h2])
    | isFalse h0, _, _ => isFalse (by simp [h0])
    | _, isFalse h1, _ => isFalse (by simp [h1])
    | _, _, isFalse h2 => isFalse (by simp [h2])
termination_by xs _ => sizeOf xs
decreasing_by all_goals (simp <;> omega)
end

instance : DecidableEq JValue := jdec

/-! ## Sorted association-list maps (model of serde_json::Map / BTreeMap) -/

/-- BTreeMap::get on a key-sorted association list. -/
def lookupJ (fields : List (String × JValue)) (k : String) : Option JValue :=
  match fields with
  | [] => none
  | (k', v) :: rest => if k' = k then some v else lookupJ rest k

/-- BTreeMap::insert: place (k, v) at its sorted position, replacing an
existing binding of k. -/
def insertSorted (fields : List (String × JValue)) (k : String) (v : JValue) :
    List (String × JValue) :=
  match fields with
  | [] => [(k, v)]
  | (k', v') :: rest =>
    if strLt k k' then (k, v) :: (k', v') :: rest
    else if k = k' then (k, v) :: rest
    else (k', v') :: insertSorted rest k v

/-- BTreeMap::remove (dropping the binding of k, if present). -/
def eraseKey (fields : List (String × JValue)) (k : String) :
    List (String × JValue) :=
  match fields with
  | [] => []
  | (k', v') :: rest => if k' = k then rest else (k', v') :: eraseKey rest k

/-- Keys are strictly ascending (the BTreeMap representation invariant). -/
def sortedK : List (String × JValue) → Bool
  | [] => true
  | [_] => true
  | (k, _) :: (k', v') :: rest => strLt k k' && sortedK ((k', v') :: rest)

mutual
/-- Well-formedness of a JValue: every object node is key-sorted. Every
value built by serde_json satisfies this; it is the representation
invariant of BTreeMap transported into the embedding. -/
def wfJ : JValue → Bool
  | .null => true
  | .bool _ => true
  | .num _ => true
  | .str _ => true
  | .arr xs => wfL xs
  | .obj fs => sortedK fs && wfF fs
termination_by v => sizeOf v
decreasing_by all_goals (simp <;> omega)
def wfL : List JValue → Bool
  | [] => true
  | x :: xs => wfJ x && wfL xs
termination_by xs => sizeOf xs
decreasing_by all_goals (simp <;> omega)
def wfF : List (String × JValue) → Bool
  | [] => true
  | (_, v) :: rest => wfJ v && wfF rest
termination_by fs => sizeOf fs
decreasing_by all_goals (simp <;> omega)
end

/-- First-match association lookup (HashMap::get / Vec scan). -/
def assocGet {α : Type} (m : List (String × α)) (k : String) : Option α :=
  match m with
  | [] => none
  | (k', v) :: rest => if k' = k then some v else assocGet rest k

/-- Insert-or-replace into an association list (HashMap::insert; iteration
order of the Rust HashMap is immaterial to every claim below). -/
def assocPut {α : Type} (m : List (String × α)) (k : String) (v : α) :
    List (String × α) :=
  match m with
  | [] => [(k, v)]
  | (k', v') :: rest => if k' = k then (k, v) :: rest else (k', v') :: assocPut rest k v

/-! ## Scroll and metadata (scroll.rs) -/

/-- Temporal tense of the linguistic metadata triple. -/
inductive Tense where
  | past
  | present
  | future
deriving Repr, DecidableEq

/-- Metadata attached to every Scroll (scroll.rs Metadata). Timestamps are
the decimal strings produced by current_iso_time. -/
structure Metadata where
  created_at : Option String := none
  updated_at : Option String := none
  synced_at : Option String := none
  expires_at : Option String := none
  deleted : Option Bool := none
  version : Nat := 0
  hash : Option String := none
  subject : Option String := none
  verb : Option String := none
  object : Option String := none
  tense : Option Tense := none
  kingdom : Option String := none
  phylum : Option String := none
  class_ : Option String := none
  extensions : List (String × JValue) := []
deriving Repr, DecidableEq

/-- Scroll - the universal data envelope (scroll.rs Scroll). -/
structure Scroll where
  key : String
  type_ : String
  metadata : Metadata
  data : JValue
deriving Repr, DecidableEq

/-- Scroll::new. -/
def Scroll.new (key : String) (data : JValue) : Scroll :=
  { key := key, type_ := "scroll/generic@v1", metadata := {}, data := data }

/-- Scroll::typed. -/
def Scroll.typed (key : String) (data : JValue) (type_ : String) : Scroll :=
  { key := key, type_ := type_, metadata := {}, data := data }

/-- Scroll::compute_hash: SHA-256 hex of key, type and the serde_json text
of data. The external hash (sha, for crate sha2) and the external text
serializer (ser, for serde_json::to_string) are explicit parameters. -/
def compute_hash (sha : String → String) (ser : JValue → String) (s : Scroll) : String :=
  sha (s.key ++ s.type_ ++ ser s.data)

/-- current_iso_time: the current Unix-milliseconds timestamp rendered in
decimal; the clock value is passed in explicitly. -/
def current_iso_time (t : Int) : String := toString t

/-! ## Patch engine (patch.rs) -/

/-- A single JSON Patch operation (RFC 6902), patch.rs PatchOp. -/
inductive PatchOp where
  | add (path : String) (value : JValue)
  | remove (path : String)
  | replace (path : String) (value : JValue)
  | move (from_ : String) (path : String)
  | copy (from_ : String) (path : String)
  | test (path : String) (value : JValue)
deriving Repr, DecidableEq

/-- A patch recording one change to a scroll (patch.rs Patch). -/
structure Patch where
  key : String
  ops : List PatchOp
  parent : Option String
  hash : String
  timestamp : Int
  seq : Nat
deriving Repr, DecidableEq

/-- Patch errors (patch.rs PatchError). The human-readable payloads of the
Rust enum are carried as plain strings. -/
inductive PatchError where
  | pathNotFound (p : String)
  | typeMismatch (p : String)
  | testFailed (p : String)
  | invalidPointer (p : String)
deriving Repr, DecidableEq

/-- diff::json_pointer escaping of a key (tilde then slash, RFC 6901). -/
def escapeKey (k : String) : String :=
  strReplace (strReplace k "~" "~0") "/" "~1"

/-- diff::json_pointer: extend a pointer by one escaped key. -/
def json_pointer (base : String) (k : String) : String :=
  base ++ "/" ++ escapeKey k

/-- Decoding of one pointer segment (slash then tilde, RFC 6901). -/
def unescapeSeg (s : String) : String :=
  strReplace (strReplace s "~1" "/") "~0" "~"

/-- diff::parse_pointer: split a pointer into decoded segments. -/
def parse_pointer (p : String) : Except PatchError (List String) :=
  if strStartsWith p "/" then
    .ok ((splitOnCharList '/' (p.data.drop 1)).map (fun seg => unescapeSeg (String.mk seg)))
  else .error (.invalidPointer p)

/-- Segment walk of diff::get_at_pointer. -/
def get_segs (data : JValue) (parts : List String) (pointer : String) :
    Except PatchError JValue :=
  match parts with
  | [] => .ok data
  | part :: rest =>
    match data with
    | .obj fields =>
      match lookupJ fields part with
      | some v => get_segs v rest pointer
      | none => .error (.pathNotFound pointer)
    | .arr xs =>
      match parseUsize part with
      | none => .error (.invalidPointer pointer)
      | some idx =>
        match xs.get? idx with
        | some v => get_segs v rest pointer
        | none => .error (.pathNotFound pointer)
    | _ => .error (.typeMismatch pointer)

/-- diff::get_at_pointer. -/
def get_at_pointer (data : JValue) (pointer : String) : Except PatchError JValue :=
  if pointer.isEmpty then .ok data
  else do
    let parts ← parse_pointer pointer
    get_segs data parts pointer

/-- Final step of diff::set_at_pointer, on the parent container. -/
def set_final (data : JValue) (last : String) (value : JValue) (must_exist : Bool)
    (pointer : String) : Except PatchError JValue :=
  match data with
  | .obj fields =>
    if must_exist ∧ (lookupJ fields last).isNone then .error (.pathNotFound pointer)
    else .ok (.obj (insertSorted fields last value))
  | .arr xs =>
    if last = "-" then .ok (.arr (xs ++ [value]))
    else match parseUsize last with
      | none => .error (.invalidPointer pointer)
      | some idx =>
        if xs.length ≤ idx then .error (.pathNotFound pointer)
        else .ok (.arr (xs.set idx value))
  | _ => .error (.typeMismatch pointer)

/-- Parent walk of diff::set_at_pointer. A missing object key on the walk
is materialised as an empty object (entry().or_insert in the source). -/
def set_parents (data : JValue) (parents : List String) (last : String) (value : JValue)
    (must_exist : Bool) (pointer : String) : Except PatchError JValue :=
  match parents with
  | [] => set_final data last value must_exist pointer
  | part :: rest =>
    match data with
    | .obj fields =>
      (set_parents ((lookupJ fields part).getD (.obj [])) rest last value must_exist pointer).map
        (fun sub => .obj (insertSorted fields part sub))
    | .arr xs =>
      match parseUsize part with
      | none => .error (.invalidPointer pointer)
      | some idx =>
        match xs.get? idx with
        | some v =>
          (set_parents v rest last value must_exist pointer).map
            (fun sub => .arr (xs.set idx sub))
        | none => .error (.pathNotFound pointer)
    | _ => .error (.typeMismatch pointer)

/-- diff::set_at_pointer. -/
def set_at_pointer (data : JValue) (pointer : String) (value : JValue)
    (must_exist : Bool) : Except PatchError JValue :=
  if pointer.isEmpty then .ok value
  else do
    let parts ← parse_pointer pointer
    match parts.getLast? with
    | some last => set_parents data parts.dropLast last value must_exist pointer
    | none => .error (.invalidPointer pointer)

/-- Final step of diff::remove_at_pointer. -/
def remove_final (data : JValue) (last : String) (pointer : String) :
    Except PatchError (JValue × JValue) :=
  match data with
  | .obj fields =>
    match lookupJ fields last with
    | some v => .ok (v, .obj (eraseKey fields last))
    | none => .error (.pathNotFound pointer)
  | .arr xs =>
    match parseUsize last with
    | none => .error (.invalidPointer pointer)
    | some idx =>
      match xs.get? idx with
      | some v => .ok (v, .arr (xs.eraseIdx idx))
      | none => .error (.pathNotFound pointer)
  | _ => .error (.typeMismatch pointer)

/-- Parent walk of diff::remove_at_pointer (get_mut: a missing key fails). -/
def remove_parents (data : JValue) (parents : List String) (last : String)
    (pointer : String) : Except PatchError (JValue × JValue) :=
  match parents with
  | [] => remove_final data last pointer
  | part :: rest =>
    match data with
    | .obj fields =>
      match lookupJ fields part with
      | some v =>
        (remove_parents v rest last pointer).map
          (fun rs => (rs.1, .obj (insertSorted fields part rs.2)))
      | none => .error (.pathNotFound pointer)
    | .arr xs =>
      match parseUsize part with
      | none => .error (.invalidPointer pointer)
      | some idx =>
        match xs.get? idx with
        | some v =>
          (remove_parents v rest last pointer).map
            (fun rs => (rs.1, .arr (xs.set idx rs.2)))
        | none => .error (.pathNotFound pointer)
    | _ => .error (.typeMismatch pointer)

/-- diff::remove_at_pointer, returning the removed value and the new
document. -/
def remove_at_pointer (data : JValue) (pointer : String) :
    Except PatchError (JValue × JValue) :=
  if pointer.isEmpty then .error (.invalidPointer "cannot remove root")
  else do
    let parts ← parse_pointer pointer
    match parts.getLast? with
    | some last => remove_parents data parts.dropLast last pointer
    | none => .error (.invalidPointer pointer)

/-- diff::apply_op: apply a single patch operation. -/
def apply_op (data : JValue) (op : PatchOp) : Except PatchError JValue :=
  match op with
  | .add path value => set_at_pointer data path value false
  | .remove path => (remove_at_pointer data path).map Prod.snd
  | .replace path value => set_at_pointer data path value true
  | .move f path => do
      let rs ← remove_at_pointer data f
      set_at_pointer rs.2 path rs.1 false
  | .copy f path => do
      let v ← get_at_pointer data f
      set_at_pointer data path v false
  | .test path value => do
      let actual ← get_at_pointer data path
      if actual ≠ value then .error (.testFailed path) else .ok data

/-- The op loop of diff::apply. -/
def applyOps (data : JValue) (ops : List PatchOp) : Except PatchError JValue :=
  ops.foldlM apply_op data

/-- diff::apply: apply a patch to a scroll, producing the new state. -/
def apply (scroll : Scroll) (patch : Patch) : Except PatchError Scroll := do
  let newData ← applyOps scroll.data patch.ops
  let base := Scroll.new scroll.key newData
  .ok { base with
        type_ := scroll.type_,
        metadata := { base.metadata with version := patch.seq } }

/-- The removals emitted by diff::compute_diff for two objects: one Remove
per key of the old object that the new object lacks, in old-key order. -/
def diff_removes (path : String) (o n : List (String × JValue)) : List PatchOp :=
  o.filterMap (fun kv =>
    if (lookupJ n kv.1).isNone then some (.remove (json_pointer path kv.1)) else none)

mutual
/-- diff::compute_diff: recursive diff between two JSON values. Objects
are diffed key by key, arrays that differ are replaced wholesale, and any
other difference is a replace. -/
def compute_diff (path : String) (old new : JValue) : List PatchOp :=
  match old, new with
  | .obj o, .obj n => diff_removes path o n ++ diff_upserts path o n
  | .arr a, .arr b =>
    if (JValue.arr a) ≠ (JValue.arr b) then [.replace path (.arr b)] else []
  | o, v => if o ≠ v then [.replace path v] else []
termination_by sizeOf new
decreasing_by all_goals (simp <;> omega)
/-- The additions and recursions emitted by diff::compute_diff for the
entries of the new object, in new-key order. -/
def diff_upserts (path : String) (o : List (String × JValue)) :
    List (String × JValue) → List PatchOp
  | [] => []
  | (k, nv) :: rest =>
    (match lookupJ o k with
     | none => [.add (json_pointer path k) nv]
     | some ov => if ov ≠ nv then compute_diff (json_pointer path k) ov nv else [])
    ++ diff_upserts path o rest
termination_by n => sizeOf n
decreasing_by all_goals (simp <;> omega)
end

/-- diff::compute_ops: a creation is a single root replace. -/
def compute_ops (old : Option JValue) (new : JValue) : List PatchOp :=
  match old with
  | none => [.replace "" new]
  | some o => compute_diff "" o new

/-- diff::create: compute the patch from an optional old scroll state to a
new one. -/
def diff_create (sha : String → String) (ser : JValue → String) (key : String)
    (old : Option Scroll) (new : Scroll) (now : Int) : Patch :=
  { key := key,
    ops := compute_ops (old.map (·.data)) new.data,
    parent := old.map (compute_hash sha ser),
    hash := compute_hash sha ser new,
    timestamp := now,
    seq := match old with
      | some s => s.metadata.version + 1
      | none => 1 }

/-! ## Specification-side navigation helpers (proof vocabulary, not from
the source): read and replace a subvalue along a chain of object keys. -/

/-- Navigate a chain of object keys. -/
def getObjPath (d : JValue) : List String → Option JValue
  | [] => some d
  | k :: rest =>
    match d with
    | .obj fs => (lookupJ fs k).bind (fun sub => getObjPath sub rest)
    | _ => none

/-- Replace the subvalue at a chain of object keys. -/
def setObjPath (d : JValue) : List String → JValue → JValue
  | [], v => v
  | k :: rest, v =>
    match d with
    | .obj fs => .obj (insertSorted fs k (setObjPath ((lookupJ fs k).getD (.obj [])) rest v))
    | other => other

/-- Fold insertSorted over a list of entries. -/
def upsertList (fs : List (String × JValue)) (entries : List (String × JValue)) :
    List (String × JValue) :=
  entries.foldl (fun acc kv => insertSorted acc kv.1 kv.2) fs

/-- Fold eraseKey over a list of keys. -/
def eraseKeys (fs : List (String × JValue)) (ks : List String) :
    List (String × JValue) :=
  ks.foldl eraseKey fs

/-- Keys of the old object absent from the new one, in old-key order. -/
def removedKeys (o n : List (String × JValue)) : List String :=
  (o.filter (fun kv => (lookupJ n kv.1).isNone)).map Prod.fst

/-- A pointer string denotes a list of segments: it is the empty root
pointer, or parse_pointer decodes it to exactly those segments. -/
def PtrDenotes (ptr : String) (segs : List String) : Prop :=
  (ptr = "" ∧ segs = []) ∨ (ptr ≠ "" ∧ parse_pointer ptr = .ok segs)

/-- The per-character escape map of json_pointer (proof vocabulary). -/
def encChar (c : Char) : List Char :=
  if c = '~' then ['~', '0'] else if c = '/' then ['~', '1'] else [c]

/-! ## Namespace layer (namespace.rs) -/

/-- 9S protocol errors (namespace.rs Error). Payload messages are carried
as plain strings. -/
inductive NsError where
  | notFound (s : String)
  | invalidPath (s : String)
  | invalidData (s : String)
  | permission (s : String)
  | closed
  | timeout
  | connection (s : String)
  | unavailable (s : String)
  | internal (s : String)
deriving Repr, DecidableEq

/-- Model of Rust char::is_alphanumeric (true on the Unicode Alphabetic
and Number general categories), given exactly for the code points below
U+0100: the ASCII letters and digits; the Latin-1 letters U+00AA, U+00B5,
U+00BA, U+00C0-U+00FF except the two operators U+00D7 and U+00F7; and the
Latin-1 numeric characters U+00B2, U+00B3, U+00B9, U+00BC-U+00BE. Code
points at U+0100 and above are not classified by this model and return
false; no theorem below evaluates it there. -/
def latin1_is_alphanumeric (c : Char) : Bool :=
  c.isAlphanum ||
  c.toNat = 0xAA || c.toNat = 0xB5 || c.toNat = 0xBA ||
  c.toNat = 0xB2 || c.toNat = 0xB3 || c.toNat = 0xB9 ||
  (0xBC ≤ c.toNat && c.toNat ≤ 0xBE) ||
  (0xC0 ≤ c.toNat && c.toNat ≤ 0xFF && c.toNat ≠ 0xD7 && c.toNat ≠ 0xF7)

/-- One iteration of the segment loop of validate_path. The character
class test of the source, char::is_alphanumeric, is the parameter
is_alnum. -/
def segment_ok (is_alnum : Char → Bool) (path : String) (segment : String) :
    Except NsError Unit :=
  if segment.isEmpty ∧ path ≠ "/" then .ok ()
  else if segment = "." ∨ segment = ".." then
    .error (.invalidPath "path traversal not allowed")
  else if segment.data.all (fun c => is_alnum c || c = '_' || c = '.' || c = '-' || c = '*') then
    .ok ()
  else .error (.invalidPath "invalid character in path")

/-- The segment loop of validate_path. -/
def validate_segments (is_alnum : Char → Bool) (path : String) :
    List String → Except NsError Unit
  | [] => .ok ()
  | seg :: rest => do
    let _ ← segment_ok is_alnum path seg
    validate_segments is_alnum path rest

/-- namespace.rs validate_path. -/
def validate_path (is_alnum : Char → Bool) (path : String) : Except NsError Unit :=
  if path.isEmpty then .error (.invalidPath "path cannot be empty")
  else if ¬ strStartsWith path "/" then .error (.invalidPath "path must start with slash")
  else validate_segments is_alnum path ((strSplitOnChar '/' path).drop 1)

/-! ## Segment-boundary tests (kernel.rs, backends/memory.rs,
backends/file.rs) -/

/-- kernel.rs is_path_under_mount. -/
def is_path_under_mount (path mount_path : String) : Bool :=
  if mount_path = "/" then strStartsWith path "/"
  else if path = mount_path then true
  else if strStartsWith path mount_path then
    strStartsWith (String.mk (path.data.drop mount_path.data.length)) "/"
  else false

/-- backends/memory.rs is_path_under_prefix (textually the same test). -/
def memory_is_path_under_pfx (path pfx : String) : Bool :=
  if pfx = "/" then strStartsWith path "/"
  else if path = pfx then true
  else if strStartsWith path pfx then
    strStartsWith (String.mk (path.data.drop pfx.data.length)) "/"
  else false

/-- backends/file.rs is_path_under_prefix (textually the same test). -/
def file_is_path_under_pfx (path pfx : String) : Bool :=
  if pfx = "/" then strStartsWith path "/"
  else if path = pfx then true
  else if strStartsWith path pfx then
    strStartsWith (String.mk (path.data.drop pfx.data.length)) "/"
  else false

/-! ## Memory backend (backends/memory.rs). Watchers are not modelled;
the claims below concern the stored map and the returned scroll. -/

/-- The state of a MemoryNamespace: the keyed scroll map and the closed
flag. -/
structure MemState where
  store : List (String × Scroll)
  closed : Bool
deriving Repr

/-- MemoryNamespace::write. -/
def memory_write (is_alnum : Char → Bool) (sha : String → String)
    (ser : JValue → String) (st : MemState) (t : Int) (path : String) (data : JValue) :
    Except NsError (MemState × Scroll) :=
  if st.closed then .error .closed
  else do
    let _ ← validate_path is_alnum path
    let prev_version := match assocGet st.store path with
      | some s => s.metadata.version
      | none => 0
    let s0 := Scroll.new path data
    let s1 := { s0 with metadata := { s0.metadata with version := prev_version + 1 } }
    let s2 := { s1 with metadata := { s1.metadata with hash := some (compute_hash sha ser s1) } }
    let s3 := { s2 with metadata := { s2.metadata with
                  created_at := some (current_iso_time t),
                  updated_at := some (current_iso_time t) } }
    .ok ({ st with store := assocPut st.store path s3 }, s3)

/-- MemoryNamespace::write_scroll. -/
def memory_write_scroll (is_alnum : Char → Bool) (sha : String → String)
    (ser : JValue → String) (st : MemState) (t : Int) (scroll : Scroll) :
    Except NsError (MemState × Scroll) :=
  if st.closed then .error .closed
  else do
    let _ ← validate_path is_alnum scroll.key
    let prev_version := match assocGet st.store scroll.key with
      | some s => s.metadata.version
      | none => 0
    let s1 := { scroll with metadata := { scroll.metadata with version := prev_version + 1 } }
    let s2 := { s1 with metadata := { s1.metadata with hash := some (compute_hash sha ser s1) } }
    let s3 := { s2 with metadata := { s2.metadata with
                  created_at := if s2.metadata.created_at.isNone
                    then some (current_iso_time t) else s2.metadata.created_at } }
    let s4 := { s3 with metadata := { s3.metadata with updated_at := some (current_iso_time t) } }
    .ok ({ st with store := assocPut st.store scroll.key s4 }, s4)

/-- MemoryNamespace::list: the stored keys filtered by the segment
boundary test. -/
def memory_list (is_alnum : Char → Bool) (st : MemState) (pfx : String) :
    Except NsError (List String) :=
  if st.closed then .error .closed
  else do
    let _ ← validate_path is_alnum pfx
    .ok ((st.store.map Prod.fst).filter (fun k => memory_is_path_under_pfx k pfx))

/-! ## File backend (backends/file.rs). The scroll files and the version
cache are modelled as association lists; filesystem I/O cannot fail in
the model. -/

/-- The state of a FileNamespace: the on-disk scrolls, the version cache,
and the closed flag. -/
structure FileState where
  files : List (String × Scroll)
  versions : List (String × Nat)
  closed : Bool
deriving Repr

/-- FileNamespace::get_version: cache first, then the file, else 0. -/
def file_get_version (st : FileState) (path : String) : Nat :=
  match assocGet st.versions path with
  | some v => v
  | none =>
    match assocGet st.files path with
    | some s => s.metadata.version
    | none => 0

/-- FileNamespace::write. -/
def file_write (is_alnum : Char → Bool) (sha : String → String)
    (ser : JValue → String) (st : FileState) (t : Int) (path : String) (data : JValue) :
    Except NsError (FileState × Scroll) :=
  if st.closed then .error .closed
  else do
    let _ ← validate_path is_alnum path
    let prev_version := file_get_version st path
    let s0 := Scroll.new path data
    let s1 := { s0 with metadata := { s0.metadata with version := prev_version + 1 } }
    let s2 := { s1 with metadata := { s1.metadata with hash := some (compute_hash sha ser s1) } }
    let s3 := { s2 with metadata := { s2.metadata with
                  created_at := some (current_iso_time t),
                  updated_at := some (current_iso_time t) } }
    .ok ({ st with
           files := assocPut st.files path s3,
           versions := assocPut st.versions path (prev_version + 1) }, s3)

/-- FileNamespace::write_scroll. -/
def file_write_scroll (is_alnum : Char → Bool) (sha : String → String)
    (ser : JValue → String) (st : FileState) (t : Int) (scroll : Scroll) :
    Except NsError (FileState × Scroll) :=
  if st.closed then .error .closed
  else do
    let _ ← validate_path is_alnum scroll.key
    let prev_version := file_get_version st scroll.key
    let s1 := { scroll with metadata := { scroll.metadata with version := prev_version + 1 } }
    let s2 := { s1 with metadata := { s1.metadata with hash := some (compute_hash sha ser s1) } }
    let s3 := { s2 with metadata := { s2.metadata with
                  created_at := if s2.metadata.created_at.isNone
                    then some (current_iso_time t) else s2.metadata.created_at } }
    let s4 := { s3 with metadata := { s3.metadata with updated_at := some (current_iso_time t) } }
    .ok ({ st with
           files := assocPut st.files scroll.key s4,
           versions := assocPut st.versions scroll.key (prev_version + 1) }, s4)

/-- FileNamespace::list: every stored key filtered by the segment
boundary test. -/
def file_list (is_alnum : Char → Bool) (st : FileState) (pfx : String) :
    Except NsError (List String) :=
  if st.closed then .error .closed
  else do
    let _ ← validate_path is_alnum pfx
    .ok ((st.files.map Prod.fst).filter (fun k => file_is_path_under_pfx k pfx))

/-! ## Crypto primitives (vault/crypto.rs), modelled symbolically.

Argon2id and AES-256-GCM are external crates. They are modelled in the
ideal, symbolic style: a key remembers how it was derived, a ciphertext
remembers its sealing key and plaintext, and decryption succeeds exactly
under the sealing key. Base64 transport of byte strings is the identity. -/

/-- A 32-byte key, identified symbolically by its provenance. -/
inductive Key where
  | derived (passphrase : String) (salt : List Nat)
  | defaultObfuscation
  | raw (bytes : List Nat)
deriving Repr, DecidableEq

/-- vault/crypto.rs CryptoError. -/
inductive CryptoError where
  | encryptionFailed (s : String)
  | decryptionFailed (s : String)
  | keyDerivationFailed (s : String)
  | invalidData (s : String)
deriving Repr, DecidableEq

/-- The two plaintext species sealed by this repository: a serialized
scroll (serde_json::to_vec / to_string of a Scroll) and a raw string (the
vault seed phrase bytes). The serde round trip is modelled as exact. -/
inductive PlainData where
  | ofScroll (s : Scroll)
  | ofString (s : String)
deriving Repr, DecidableEq

/-- vault/crypto.rs SealedValue. The ciphertext is symbolic: it records
the sealing key and the plaintext (an ideal AEAD). -/
structure SealedValue where
  version : Nat
  nonce : List Nat
  ciphertext : Key × PlainData
deriving Repr, DecidableEq

/-- vault/crypto.rs derive_key (Argon2id; ideal, injective). The source
returns a Result but its parameters are fixed and valid, so derivation
cannot fail. -/
def derive_key (passphrase : String) (salt : List Nat) : Key :=
  .derived passphrase salt

/-- vault/crypto.rs seal. The random 12-byte nonce drawn from OsRng is the
explicit parameter nonce. -/
def crypto_seal (key : Key) (plaintext : PlainData) (nonce : List Nat) : SealedValue :=
  { version := 1, nonce := nonce, ciphertext := (key, plaintext) }

/-- vault/crypto.rs unseal: version check, nonce length check, then ideal
AEAD opening, which succeeds exactly under the sealing key. -/
def crypto_unseal (key : Key) (sealed : SealedValue) : Except CryptoError PlainData :=
  if sealed.version ≠ 1 then .error (.invalidData "unsupported sealed version")
  else if sealed.nonce.length ≠ 12 then .error (.invalidData "nonce must be 12 bytes")
  else if sealed.ciphertext.1 = key then .ok sealed.ciphertext.2
  else .error (.decryptionFailed "aead open failed")

/-! ## Sealed scrolls (nine_s/sealed.rs) -/

/-- sealed.rs SealedScroll. ciphertext and nonce are as in SealedValue;
salt is the raw salt bytes (base64 is the identity in the model). -/
structure SealedScroll where
  version : Nat
  ciphertext : Key × PlainData
  nonce : List Nat
  salt : Option (List Nat)
  has_password : Bool
  sealed_at : Int
  scroll_type : Option String
deriving Repr, DecidableEq

/-- sealed.rs default_key: the fixed public obfuscation key. -/
def default_key : Key := .defaultObfuscation

/-- sealed.rs MAX_SEALED_SIZE. -/
def MAX_SEALED_SIZE : Nat := 65536

/-- Scroll::seal. The external serde_json::to_string serialization of the
scroll (used only for the size bound) is the parameter scrollToJson; the
random salt and nonce are the parameters saltR and nonceR; now is the
wall-clock Unix-seconds timestamp. -/
def scroll_seal (scrollToJson : Scroll → String) (s : Scroll) (password : Option String)
    (saltR : List Nat) (nonceR : List Nat) (now : Int) :
    Except CryptoError SealedScroll :=
  let scroll_json := scrollToJson s
  if MAX_SEALED_SIZE < scroll_json.utf8ByteSize then
    .error (.invalidData "scroll exceeds maximum sealed size")
  else
    let keySalt : Key × Option (List Nat) :=
      match password with
      | some pwd => if ¬ pwd.isEmpty then (derive_key pwd saltR, some saltR)
                    else (default_key, none)
      | none => (default_key, none)
    let sealed := crypto_seal keySalt.1 (.ofScroll s) nonceR
    .ok { version := 1,
          ciphertext := sealed.ciphertext,
          nonce := sealed.nonce,
          salt := keySalt.2,
          has_password := password.isSome && ¬(password.getD "").isEmpty,
          sealed_at := now,
          scroll_type := some s.type_ }

/-- SealedScroll::unseal. -/
def sealed_unseal (ss : SealedScroll) (password : Option String) :
    Except CryptoError Scroll :=
  if ss.version ≠ 1 then .error (.invalidData "unsupported sealed version")
  else do
    let key ←
      if ss.has_password then
        match password with
        | none => Except.error (CryptoError.decryptionFailed "password required but not provided")
        | some pwd =>
          match ss.salt with
          | none => Except.error (CryptoError.invalidData "password-protected scroll missing salt")
          | some salt => Except.ok (derive_key pwd salt)
      else Except.ok default_key
    let pt ← crypto_unseal key { version := 1, nonce := ss.nonce, ciphertext := ss.ciphertext }
    match pt with
    | .ofScroll s => .ok s
    | .ofString _ => .error (.invalidData "invalid scroll json")

/-! ## Store (nine_s/store.rs), per-key model.

The store wraps the file backend with encryption and patch history. For
one key, the model keeps the decrypted scroll state the store would read
back (writing seals the serialized scroll and read unseals it; the
seal/unseal and serde round trips are exact, as established by the crypto
model above) and the contents of the key's patches/ directory as a list
of (sequence-number, patch) pairs keyed by the 8-digit file name. -/

/-- The per-key state of a Store: the current persisted (decrypted)
scroll, and the patches/ directory. -/
structure KeyState where
  current : Option Scroll
  patchDir : List (Nat × Patch)
deriving Repr

/-- The largest sequence number parsed from the patch file names, 0 when
the directory is empty or missing. -/
def maxSeq (dir : List (Nat × Patch)) : Nat :=
  dir.foldl (fun m e => max m e.1) 0

/-- Store::next_seq: scan the patches/ directory and return max + 1; a
missing directory yields 1. -/
def next_seq (dir : List (Nat × Patch)) : Nat := maxSeq dir + 1

/-- Write a patch file named by its 8-digit sequence number (overwriting a
file of the same name). -/
def putPatch (dir : List (Nat × Patch)) (k : Nat) (p : Patch) : List (Nat × Patch) :=
  match dir with
  | [] => [(k, p)]
  | (k', p') :: rest => if k' = k then (k, p) :: rest else (k', p') :: putPatch rest k p

/-- Store::write_scroll (the encrypted branch, which every constructor of
Store selects): read the old decrypted state, derive the sequence from the
patches/ directory, stamp version, hash and timestamps, seal and persist
the scroll, then compute and persist the patch with the derived sequence.
Returns the new state, the returned scroll, and the persisted patch. -/
def store_write_scroll (sha : String → String) (ser : JValue → String)
    (st : KeyState) (t : Int) (scroll : Scroll) : KeyState × Scroll × Patch :=
  let old := st.current
  let new_version := next_seq st.patchDir
  let v1 := { scroll with metadata := { scroll.metadata with version := new_version } }
  let v2 := { v1 with metadata := { v1.metadata with hash := some (compute_hash sha ser v1) } }
  let v3 := { v2 with metadata := { v2.metadata with
                created_at := if v2.metadata.created_at.isNone
                  then some (current_iso_time t) else v2.metadata.created_at } }
  let v4 := { v3 with metadata := { v3.metadata with updated_at := some (current_iso_time t) } }
  let p0 := diff_create sha ser scroll.key old v4 t
  let p := { p0 with seq := new_version }
  ({ current := some v4, patchDir := putPatch st.patchDir new_version p }, v4, p)

/-- Store::write: wrap the data in a fresh scroll and delegate. -/
def store_write (sha : String → String) (ser : JValue → String)
    (st : KeyState) (t : Int) (path : String) (data : JValue) :
    KeyState × Scroll × Patch :=
  store_write_scroll sha ser st t (Scroll.new path data)

/-- Run a sequence of timestamped write_scroll calls against one key,
starting from the empty key state. -/
def store_write_seq (sha : String → String) (ser : JValue → String)
    (writes : List (Int × Scroll)) : KeyState :=
  writes.foldl (fun st w => (store_write_scroll sha ser st w.1 w.2).1) ⟨none, []⟩

/-- Run a sequence of timestamped write_scroll calls from a key state,
collecting the persisted patches in write order. -/
def store_write_run (sha : String → String) (ser : JValue → String) :
    KeyState → List (Int × Scroll) → KeyState × List Patch
  | st, [] => (st, [])
  | st, w :: rest =>
    let r := store_write_scroll sha ser st w.1 w.2
    let next := store_write_run sha ser r.1 rest
    (next.1, r.2.2 :: next.2)

/-- Stable insertion of a patch into a seq-sorted list (sort_by_key is a
stable sort: an earlier patch stays before a later one of equal seq). -/
def insertBySeq (p : Patch) : List Patch → List Patch
  | [] => [p]
  | q :: rest => if p.seq ≤ q.seq then p :: q :: rest else q :: insertBySeq p rest

/-- Stable sort by seq, modelling Vec::sort_by_key. -/
def sortBySeq : List Patch → List Patch
  | [] => []
  | p :: rest => insertBySeq p (sortBySeq rest)

/-- Store::history: the parsed patches of the key's patches/ directory,
sorted by seq. -/
def store_history (dir : List (Nat × Patch)) : List Patch :=
  sortBySeq (dir.map Prod.snd)

/-- Store::state_at: reconstruct the state after the first seq patches by
applying them from a genesis scroll with empty-object data. -/
def state_at (dir : List (Nat × Patch)) (path : String) (seq : Nat) :
    Except NsError Scroll :=
  let patches := store_history dir
  if patches.isEmpty then .error (.notFound path)
  else if seq = 0 ∨ patches.length < seq then
    .error (.internal "invalid sequence number")
  else
    (patches.take seq).foldlM
      (fun cur p =>
        match apply cur p with
        | .ok next => .ok next
        | .error _ => .error (NsError.internal "failed to apply patch"))
      (Scroll.new path (.obj []))

/-- Specification-side reconstruction: the scroll obtained by applying the
first seq patches, in order, to a genesis scroll with empty-object data. -/
def apply_first_patches (patches : List Patch) (path : String) (seq : Nat) :
    Except PatchError Scroll :=
  (patches.take seq).foldlM apply (Scroll.new path (.obj []))

/-- A concrete patch used to instantiate history theorems. -/
def patchWit : Patch :=
  { key := "/k", ops := [], parent := none, hash := "h", timestamp := 0, seq := 1 }

/-! ## Store watch (store.rs watch and watch_decrypted).

A scroll file of an encrypted store carries, in its data field, the JSON
encoding of a SealedValue. The data field of such a stored scroll is
modelled as either a SealedValue (serde_json::from_value succeeds) or
some other JSON (it fails). The subscription stream is modelled by the
finite list of scrolls the file backend delivers while the subscriber
stays attached; channel capacity is not modelled. -/

/-- The data field of a scroll file as the store's watch path sees it. -/
inductive StoredData where
  | sealedData (sv : SealedValue)
  | plainData (j : JValue)
deriving Repr, DecidableEq

/-- A scroll as delivered by the underlying file backend of an encrypted
store. -/
structure StoredScroll where
  key : String
  type_ : String
  metadata : Metadata
  data : StoredData
deriving Repr, DecidableEq

/-- store.rs decrypt_scroll: parse the data field as a SealedValue,
unseal it, and parse the plaintext as a scroll. -/
def decrypt_scroll (sealed_scroll : StoredScroll) (key : Key) : Except NsError Scroll :=
  match sealed_scroll.data with
  | .plainData _ => .error (.internal "failed to parse sealed data")
  | .sealedData sv =>
    match crypto_unseal key sv with
    | .error _ => .error (.internal "decryption failed")
    | .ok (.ofScroll s) => .ok s
    | .ok (.ofString _) => .error (.internal "failed to parse scroll")

/-- Store's Namespace::watch on an encrypted store: it delegates to
self.inner.watch, so the subscriber receives the stored scrolls exactly
as persisted, still sealed. -/
def store_watch_raw (incoming : List StoredScroll) : List StoredScroll :=
  incoming

/-- The forwarder loop of Store::watch_decrypted: each incoming scroll is
decrypted; a success is forwarded on the new channel, a failure is logged
and dropped, and the loop continues either way. -/
def watch_decrypted_forward (key : Key) : List StoredScroll → List Scroll
  | [] => []
  | s :: rest =>
    match decrypt_scroll s key with
    | .ok sc => sc :: watch_decrypted_forward key rest
    | .error _ => watch_decrypted_forward key rest

/-- A concrete store encryption key for instantiating the watch theorems. -/
def watchKeyWit : Key := .raw (List.replicate 32 7)

/-- A concrete decrypted scroll for instantiating the watch theorems. -/
def watchScrollWit : Scroll := Scroll.new "/k" (.num 1)

/-- The sealed form of watchScrollWit under watchKeyWit. -/
def watchSealedWit : SealedValue :=
  crypto_seal watchKeyWit (.ofScroll watchScrollWit) (List.replicate 12 0)

/-- The stored (still sealed) scroll file holding watchSealedWit. -/
def watchStoredWit : StoredScroll :=
  { key := "/k", type_ := "scroll/generic@v1", metadata := {},
    data := .sealedData watchSealedWit }

/-! ## Vault store and rate limiter (vault/store.rs, vault/session.rs) -/

/-- The PHC string stored at /passphrase-hash, symbolically: Argon2id of a
passphrase over a random salt. Verification is ideal: it succeeds exactly
for the hashed passphrase. -/
inductive PhcHash where
  | phc (passphrase : String) (salt : List Nat)
deriving Repr, DecidableEq

/-- vault/crypto.rs verify_passphrase (ideal). -/
def verify_passphrase (passphrase : String) (hash : PhcHash) : Bool :=
  match hash with
  | .phc p _ => p = passphrase

/-- vault/store.rs StoreError. -/
inductive StoreError where
  | storage (s : String)
  | serialization
  | cryptoErr (e : CryptoError)
  | vaultNotInitialized
  | invalidPassphrase
  | alreadySetUp
  | rateLimited (msg : String)
deriving Repr, DecidableEq

/-- session.rs RateLimiter. Instants are Unix seconds. -/
structure RateLimiter where
  failed_attempts : Nat
  last_attempt : Option Nat
  locked_until : Option Nat
deriving Repr, DecidableEq

/-- RateLimiter::new. -/
def rl_new : RateLimiter := ⟨0, none, none⟩

/-- RateLimiter::MAX_ATTEMPTS. -/
def RL_MAX_ATTEMPTS : Nat := 3
/-- RateLimiter::BASE_LOCKOUT_SECS. -/
def RL_BASE_LOCKOUT_SECS : Nat := 60
/-- RateLimiter::MAX_LOCKOUT_SECS. -/
def RL_MAX_LOCKOUT_SECS : Nat := 1800
/-- RateLimiter::RESET_AFTER_SECS. -/
def RL_RESET_AFTER_SECS : Nat := 3600

/-- RateLimiter::check_locked at the given instant: reset the counter
after an hour of inactivity, then fail while a lockout is pending, and
clear an elapsed lockout. Returns the updated state and the error
message, if any. -/
def check_locked (rl : RateLimiter) (now : Nat) : RateLimiter × Option String :=
  let rl1 := match rl.last_attempt with
    | some last =>
      if RL_RESET_AFTER_SECS < now - last then
        { rl with failed_attempts := 0, locked_until := none }
      else rl
    | none => rl
  match rl1.locked_until with
  | some untilT =>
    if now < untilT then (rl1, some "too many failed attempts")
    else ({ rl1 with locked_until := none }, none)
  | none => (rl1, none)

/-- RateLimiter::record_failure: bump the counter and, from the third
failure on, install an exponentially growing lockout capped at 30
minutes. -/
def record_failure (rl : RateLimiter) (now : Nat) : RateLimiter :=
  let n := rl.failed_attempts + 1
  let rl1 := { rl with failed_attempts := n, last_attempt := some now }
  if RL_MAX_ATTEMPTS ≤ n then
    let multiplier := (n - RL_MAX_ATTEMPTS) / RL_MAX_ATTEMPTS
    let lockout_secs := min (RL_BASE_LOCKOUT_SECS * 2 ^ multiplier) RL_MAX_LOCKOUT_SECS
    { rl1 with locked_until := some (now + lockout_secs) }
  else rl1

/-- RateLimiter::record_success: full reset. -/
def record_success (_ : RateLimiter) : RateLimiter := ⟨0, none, none⟩

/-- The persistent state of a VaultStore: the /passphrase-hash record (a
string scroll, none when absent or reset to null), the /salt record, and
the in-memory rate limiter. -/
structure VaultState where
  passphrase_hash : Option PhcHash
  salt : Option (List Nat)
  limiter : RateLimiter
deriving Repr, DecidableEq

/-- VaultStore::unlock at the given instant: consult the rate limiter
before anything else (a lockout returns without touching the stored hash,
the passphrase, or the KDF), then verify the passphrase, recording
failure or success, and finally derive the vault key from the stored
salt. -/
def vault_unlock (st : VaultState) (now : Nat) (passphrase : String) :
    VaultState × Except StoreError Key :=
  let checked := check_locked st.limiter now
  let st1 := { st with limiter := checked.1 }
  match checked.2 with
  | some msg => (st1, .error (.rateLimited msg))
  | none =>
    match st1.passphrase_hash with
    | none => (st1, .error .vaultNotInitialized)
    | some h =>
      if ¬ verify_passphrase passphrase h then
        ({ st1 with limiter := record_failure st1.limiter now }, .error .invalidPassphrase)
      else
        let st2 := { st1 with limiter := record_success st1.limiter }
        match st2.salt with
        | none => (st2, .error .vaultNotInitialized)
        | some salt => (st2, .ok (derive_key passphrase salt))

/-- Run a list of timestamped unlock attempts, collecting the results. -/
def vault_unlock_seq (st : VaultState) : List (Nat × String) →
    VaultState × List (Except StoreError Key)
  | [] => (st, [])
  | (t, p) :: rest =>
    let step := vault_unlock st t p
    let tail := vault_unlock_seq step.1 rest
    (tail.1, step.2 :: tail.2)

/-! ## Mount kernel (kernel.rs) -/

/-- A mounted namespace, as the kernel sees it: the five operations.
watch is modelled by the finite list of scrolls the subscription
eventually delivers. -/
structure NsOps where
  read : String → Except NsError (Option Scroll)
  write : String → JValue → Except NsError Scroll
  write_scroll : Scroll → Except NsError Scroll
  list : String → Except NsError (List String)
  watch : String → Except NsError (List Scroll)

/-- Remove every trailing occurrence of a suffix (str::trim_end_matches). -/
def trimEndSfx (s pat : String) : String :=
  if pat.data ≠ [] ∧ pat.data.isSuffixOf s.data then
    trimEndSfx (String.mk (s.data.take (s.data.length - pat.data.length))) pat
  else s
termination_by s.data.length
decreasing_by
  rename_i h
  have h1 : 0 < pat.data.length := List.length_pos.mpr h.1
  have h2 : pat.data.length ≤ s.data.length :=
    List.IsSuffix.length_le (List.isSuffixOf_iff_suffix.mp h.2)
  show (List.take (s.data.length - pat.data.length) s.data).length < s.data.length
  rw [List.length_take]
  omega

/-- Kernel::resolve: the longest mount whose path is a segment-boundary
match for the given path, with the mount path stripped (the root mount
passes the path through, an exact match maps to the root path). The
BTreeMap iteration is a fold over the mount list. -/
def resolve (mounts : List (String × NsOps)) (path : String) :
    Except NsError (NsOps × String) :=
  let best := mounts.foldl
    (fun best entry =>
      if is_path_under_mount path entry.1 then
        match best with
        | some cur =>
          if cur.1.utf8ByteSize < entry.1.utf8ByteSize then some entry else some cur
        | none => some entry
      else best)
    (none : Option (String × NsOps))
  match best with
  | some (mount_path, ns) =>
    let stripped :=
      if mount_path = "/" then path
      else if path = mount_path then "/"
      else String.mk (path.data.drop mount_path.data.length)
    .ok (ns, stripped)
  | none => .error (.notFound path)

/-- Kernel read: resolve, delegate, restore the original key. -/
def kernel_read (mounts : List (String × NsOps)) (path : String) :
    Except NsError (Option Scroll) := do
  let r ← resolve mounts path
  let s ← r.1.read r.2
  .ok (s.map (fun sc => { sc with key := path }))

/-- Kernel write: resolve, delegate, restore the original key. -/
def kernel_write (mounts : List (String × NsOps)) (path : String) (data : JValue) :
    Except NsError Scroll := do
  let r ← resolve mounts path
  let s ← r.1.write r.2 data
  .ok { s with key := path }

/-- Kernel write_scroll: resolve on the scroll's key, delegate with the
stripped key, restore the original key. -/
def kernel_write_scroll (mounts : List (String × NsOps)) (scroll : Scroll) :
    Except NsError Scroll := do
  let r ← resolve mounts scroll.key
  let s ← r.1.write_scroll { scroll with key := r.2 }
  .ok { s with key := scroll.key }

/-- Kernel list: resolve, delegate, restore the mount prefix on each
returned path. -/
def kernel_list (mounts : List (String × NsOps)) (pfx : String) :
    Except NsError (List String) := do
  let r ← resolve mounts pfx
  let paths ← r.1.list r.2
  let mount_pfx :=
    if pfx = "/" then ""
    else if r.2.data.length ≤ pfx.data.length then
      String.mk (pfx.data.take (pfx.data.length - r.2.data.length))
    else ""
  .ok (paths.map (fun p =>
    if mount_pfx.isEmpty then p
    else if p = "/" then mount_pfx
    else mount_pfx ++ p))

/-- Kernel watch: resolve, subscribe in the child namespace, and restore
the mount prefix on each forwarded scroll (the translation done by the
forwarding thread). -/
def kernel_watch (mounts : List (String × NsOps)) (pattern : String) :
    Except NsError (List Scroll) := do
  let r ← resolve mounts pattern
  let events ← r.1.watch r.2
  .ok (events.map (fun sc =>
    if r.2 = "/" then
      { sc with key := trimEndSfx (trimEndSfx pattern "/**") "/*" ++ sc.key }
    else
      let mount_pfx := String.mk (pattern.data.take (pattern.data.length - r.2.data.length))
      { sc with key := if sc.key = "/" then mount_pfx else mount_pfx ++ sc.key }))

/-! ## Lemmas: the strict string order -/

theorem charListLt_irrefl : ∀ l : List Char, charListLt l l = false := by
  intro l
  induction l with
  | nil => rfl
  | cons x xs ih => simp [charListLt, ih]

theorem char_eq_of_toNat_eq {x y : Char} (h : x.toNat = y.toNat) : x = y := by
  simpa [Char.toNat, Char.ext_iff, UInt32.ext_iff] using h

theorem charListLt_trans : ∀ a b c : List Char,
    charListLt a b = true → charListLt b c = true → charListLt a c = true := by
  intro a
  induction a with
  | nil =>
    intro b c hab hbc
    cases b with
    | nil => simp [charListLt] at hab
    | cons y ys =>
      cases c with
      | nil => simp [charListLt] at hbc
      | cons z zs => simp [charListLt]
  | cons x xs ih =>
    intro b c hab hbc
    cases b with
    | nil => simp [charListLt] at hab
    | cons y ys =>
      cases c with
      | nil => simp [charListLt] at hbc
      | cons z zs =>
        simp only [charListLt] at hab hbc ⊢
        by_cases h1 : x.toNat < y.toNat
        · by_cases h2 : y.toNat < z.toNat
          · simp [show x.toNat < z.toNat by omega]
          · rw [if_neg h2] at hbc
            by_cases h3 : y.toNat = z.toNat
            · simp [show x.toNat < z.toNat by omega]
            · rw [if_neg h3] at hbc
              exact absurd hbc (by simp)
        · rw [if_neg h1] at hab
          by_cases h1' : x.toNat = y.toNat
          · rw [if_pos h1'] at hab
            by_cases h2 : y.toNat < z.toNat
            · simp [show x.toNat < z.toNat by omega]
            · rw [if_neg h2] at hbc
              by_cases h3 : y.toNat = z.toNat
              · rw [if_pos h3] at hbc
                rw [if_neg (by omega : ¬ x.toNat < z.toNat),
                    if_pos (by omega : x.toNat = z.toNat)]
                exact ih ys zs hab hbc
              · rw [if_neg h3] at hbc
                exact absurd hbc (by simp)
          · rw [if_neg h1'] at hab
            exact absurd hab (by simp)

theorem charListLt_total : ∀ a b : List Char,
    charListLt a b = true ∨ a = b ∨ charListLt b a = true := by
  intro a
  induction a with
  | nil =>
    intro b
    cases b with
    | nil => right; left; rfl
    | cons y ys => left; simp [charListLt]
  | cons x xs ih =>
    intro b
    cases b with
    | nil => right; right; simp [charListLt]
    | cons y ys =>
      rcases Nat.lt_trichotomy x.toNat y.toNat with h | h | h
      · left; simp [charListLt, h]
      · have hxy : x = y := char_eq_of_toNat_eq h
        subst hxy
        rcases ih ys with h2 | h2 | h2
        · left; simp [charListLt, h2]
        · right; left; rw [h2]
        · right; right; simp [charListLt, h2]
      · right; right
        simp [charListLt, h]

theorem strLt_irrefl (a : String) : strLt a a = false := charListLt_irrefl a.data

theorem strLt_trans {a b c : String} (h1 : strLt a b = true) (h2 : strLt b c = true) :
    strLt a c = true := charListLt_trans a.data b.data c.data h1 h2

theorem strLt_total (a b : String) : strLt a b = true ∨ a = b ∨ strLt b a = true := by
  rcases charListLt_total a.data b.data with h | h | h
  · left; exact h
  · right; left
    cases a; cases b
    exact congrArg String.mk h
  · right; right; exact h

theorem strLt_asymm {a b : String} (h : strLt a b = true) : strLt b a = false := by
  by_contra hc
  have hba : strLt b a = true := by
    cases hx : strLt b a
    · exact absurd hx hc
    · rfl
  have h2 := strLt_trans h hba
  rw [strLt_irrefl] at h2
  simp at h2

theorem strLt_ne {a b : String} (h : strLt a b = true) : a ≠ b := by
  intro he
  subst he
  rw [strLt_irrefl] at h
  simp at h

/-! ## Lemmas: the sorted association-list map -/

theorem sortedK_cons {k : String} {v : JValue} {rest : List (String × JValue)}
    (h : sortedK ((k, v) :: rest) = true) : sortedK rest = true := by
  cases rest with
  | nil => rfl
  | cons hd tl =>
    obtain ⟨k', v'⟩ := hd
    simp only [sortedK, Bool.and_eq_true] at h
    exact h.2

theorem sortedK_head_lt : ∀ {tl : List (String × JValue)} {k : String} {v : JValue},
    sortedK ((k, v) :: tl) = true → ∀ b ∈ tl, strLt k b.1 = true := by
  intro tl
  induction tl with
  | nil => intro k v _ b hb; cases hb
  | cons hd tl2 ih =>
    obtain ⟨k2, v2⟩ := hd
    intro k v h b hb
    simp only [sortedK, Bool.and_eq_true] at h
    rcases List.mem_cons.mp hb with hb' | hb'
    · rw [hb']; exact h.1
    · exact strLt_trans h.1 (ih h.2 b hb')

theorem sortedK_pairwise : ∀ {fs : List (String × JValue)}, sortedK fs = true →
    fs.Pairwise (fun a b => strLt a.1 b.1 = true) := by
  intro fs
  induction fs with
  | nil => intro _; exact List.Pairwise.nil
  | cons hd tl ih =>
    obtain ⟨k, v⟩ := hd
    intro h
    exact List.Pairwise.cons (sortedK_head_lt h) (ih (sortedK_cons h))

theorem lookupJ_eq_none_of_forall_lt : ∀ {fs : List (String × JValue)} {k : String},
    (∀ e ∈ fs, strLt k e.1 = true) → lookupJ fs k = none := by
  intro fs k h
  induction fs with
  | nil => rfl
  | cons hd tl ih =>
    obtain ⟨k', v'⟩ := hd
    have hk : strLt k k' = true := h (k', v') (by simp)
    have hne : k' ≠ k := fun he => (strLt_ne hk) he.symm
    simp only [lookupJ, hne, if_false]
    exact ih (fun e he => h e (by simp [he]))

theorem lookupJ_mem : ∀ {fs : List (String × JValue)} {k : String} {v : JValue},
    lookupJ fs k = some v → (k, v) ∈ fs := by
  intro fs k v h
  induction fs with
  | nil => simp [lookupJ] at h
  | cons hd tl ih =>
    obtain ⟨k', v'⟩ := hd
    by_cases he : k' = k
    · subst he
      simp [lookupJ] at h
      subst h
      simp
    · simp only [lookupJ, he, if_false] at h
      exact List.mem_cons_of_mem _ (ih h)

theorem lookupJ_isSome_of_mem {fs : List (String × JValue)} {k : String} {v : JValue}
    (h : (k, v) ∈ fs) : (lookupJ fs k).isSome = true := by
  induction fs with
  | nil => cases h
  | cons hd tl ih =>
    obtain ⟨k', v'⟩ := hd
    by_cases he : k' = k
    · simp [lookupJ, he]
    · rcases List.mem_cons.mp h with h' | h'
      · cases h'; simp at he
      · simp only [lookupJ, he, if_false]
        exact ih h'

theorem lookupJ_insertSorted_self : ∀ (fs : List (String × JValue)) (k : String) (v : JValue),
    lookupJ (insertSorted fs k v) k = some v := by
  intro fs k v
  induction fs with
  | nil => simp [insertSorted, lookupJ]
  | cons hd tl ih =>
    obtain ⟨k', v'⟩ := hd
    by_cases h1 : strLt k k' = true
    · simp [insertSorted, h1, lookupJ]
    · by_cases h2 : k = k'
      · subst h2
        simp [insertSorted, strLt_irrefl, lookupJ]
      · have hne : k' ≠ k := fun he => h2 he.symm
        simp [insertSorted, h1, h2, lookupJ, hne, ih]

theorem lookupJ_insertSorted_ne : ∀ (fs : List (String × JValue)) (k : String) (v : JValue)
    (k' : String), k' ≠ k → lookupJ (insertSorted fs k v) k' = lookupJ fs k' := by
  intro fs k v k' hne
  have hne' : ¬ (k = k') := fun hx => hne hx.symm
  induction fs with
  | nil => simp [insertSorted, lookupJ, hne']
  | cons hd tl ih =>
    obtain ⟨k0, v0⟩ := hd
    by_cases h1 : strLt k k0 = true
    · simp [insertSorted, h1, lookupJ, hne']
    · by_cases h2 : k = k0
      · subst h2
        simp [insertSorted, h1, lookupJ, hne']
      · simp only [insertSorted, h1, if_false, h2, if_false, lookupJ]
        by_cases h3 : k0 = k'
        · simp [h3]
        · simp [h3, ih]

theorem insertSorted_ne_nil (fs : List (String × JValue)) (k : String) (v : JValue) :
    insertSorted fs k v ≠ [] := by
  cases fs with
  | nil => simp [insertSorted]
  | cons hd tl =>
    obtain ⟨k', v'⟩ := hd
    by_cases h1 : strLt k k' = true
    · simp [insertSorted, h1]
    · by_cases h2 : k = k'
      · subst h2
        simp [insertSorted, strLt_irrefl]
      · simp [insertSorted, h1, h2]

theorem insertSorted_head_key : ∀ (fs : List (String × JValue)) (k : String) (v : JValue)
    (e : String × JValue), (insertSorted fs k v).head? = some e →
    e.1 = k ∨ ∃ e0, fs.head? = some e0 ∧ e.1 = e0.1 := by
  intro fs k v e h
  cases fs with
  | nil =>
    simp [insertSorted] at h
    left; rw [← h]
  | cons hd tl =>
    obtain ⟨k', v'⟩ := hd
    by_cases h1 : strLt k k' = true
    · simp [insertSorted, h1] at h
      left; rw [← h]
    · by_cases h2 : k = k'
      · subst h2
        simp [insertSorted, strLt_irrefl] at h
        left; rw [← h]
      · simp [insertSorted, h1, h2] at h
        right; exact ⟨(k', v'), by simp, by rw [← h]⟩

theorem sortedK_cons_intro {a : String × JValue} {l : List (String × JValue)}
    (hl : sortedK l = true) (hh : ∀ b ∈ l.head?, strLt a.1 b.1 = true) :
    sortedK (a :: l) = true := by
  obtain ⟨k, v⟩ := a
  cases l with
  | nil => rfl
  | cons hd tl =>
    obtain ⟨k2, v2⟩ := hd
    simp only [sortedK, Bool.and_eq_true]
    exact ⟨hh (k2, v2) (by simp), hl⟩

theorem insertSorted_sorted : ∀ {fs : List (String × JValue)}, sortedK fs = true →
    ∀ (k : String) (v : JValue), sortedK (insertSorted fs k v) = true := by
  intro fs
  induction fs with
  | nil => intro _ k v; rfl
  | cons hd tl ih =>
    obtain ⟨k', v'⟩ := hd
    intro hs k v
    have htl := sortedK_cons hs
    by_cases h1 : strLt k k' = true
    · simp only [insertSorted, h1, if_true]
      exact sortedK_cons_intro hs (by
        intro b hb
        simp only [List.head?_cons, Option.mem_def, Option.some.injEq] at hb
        subst hb
        exact h1)
    · by_cases h2 : k = k'
      · subst h2
        simp only [insertSorted, h1, if_pos rfl]
        cases tl with
        | nil => rfl
        | cons hd2 tl2 =>
          obtain ⟨k2, w2⟩ := hd2
          simp only [sortedK, Bool.and_eq_true] at hs ⊢
          exact hs
      · simp only [insertSorted, h1, if_false, h2, if_false]
        refine sortedK_cons_intro (ih htl k v) ?_
        intro b hb
        rcases insertSorted_head_key tl k v b hb with he | ⟨e0, he0, he1⟩
        · rw [he]
          rcases strLt_total k' k with h3 | h3 | h3
          · exact h3
          · exact absurd h3.symm h2
          · exact absurd h3 (by simp [h1])
        · rw [he1]
          cases tl with
          | nil => simp at he0
          | cons hd2 tl2 =>
            simp only [List.head?_cons, Option.some.injEq] at he0
            subst he0
            obtain ⟨k2, w2⟩ := hd2
            simp only [sortedK, Bool.and_eq_true] at hs
            exact hs.1

theorem sortedK_nodup_keys {fs : List (String × JValue)} (h : sortedK fs = true) :
    (fs.map Prod.fst).Nodup := by
  have hp := sortedK_pairwise h
  have : fs.Pairwise (fun a b => a.1 ≠ b.1) :=
    hp.imp (fun hab => strLt_ne hab)
  exact List.Pairwise.map _ (fun a b hab => hab) this

theorem eraseKey_sublist : ∀ (fs : List (String × JValue)) (k : String),
    (eraseKey fs k).Sublist fs := by
  intro fs k
  induction fs with
  | nil => simp [eraseKey]
  | cons hd tl ih =>
    obtain ⟨k', v'⟩ := hd
    by_cases he : k' = k
    · simp only [eraseKey, he, if_pos rfl]
      exact List.sublist_cons_self _ _
    · simp only [eraseKey, he, if_false]
      exact List.Sublist.cons₂ _ ih

theorem sortedK_of_pairwise {fs : List (String × JValue)}
    (h : fs.Pairwise (fun a b => strLt a.1 b.1 = true)) : sortedK fs = true := by
  induction fs with
  | nil => rfl
  | cons hd tl ih =>
    rcases List.pairwise_cons.mp h with ⟨hhd, htl⟩
    exact sortedK_cons_intro (ih htl) (by
      intro b hb
      cases tl with
      | nil => simp at hb
      | cons hd2 tl2 =>
        simp only [List.head?_cons, Option.mem_def, Option.some.injEq] at hb
        subst hb
        exact hhd hd2 (by simp))

theorem eraseKey_sorted {fs : List (String × JValue)} (h : sortedK fs = true)
    (k : String) : sortedK (eraseKey fs k) = true :=
  sortedK_of_pairwise ((sortedK_pairwise h).sublist (eraseKey_sublist fs k))

theorem lookupJ_eraseKey_ne : ∀ (fs : List (String × JValue)) (k k' : String),
    k' ≠ k → lookupJ (eraseKey fs k) k' = lookupJ fs k' := by
  intro fs k k' hne
  induction fs with
  | nil => rfl
  | cons hd tl ih =>
    obtain ⟨k0, v0⟩ := hd
    have hne' : ¬ (k = k') := fun hx => hne hx.symm
    by_cases he : k0 = k
    · subst he
      simp [eraseKey, lookupJ, hne']
    · simp only [eraseKey, he, if_false, lookupJ]
      by_cases h2 : k0 = k'
      · simp [h2]
      · simp [h2, ih]

theorem lookupJ_eraseKey_self {fs : List (String × JValue)} (h : sortedK fs = true)
    (k : String) : lookupJ (eraseKey fs k) k = none := by
  induction fs with
  | nil => rfl
  | cons hd tl ih =>
    obtain ⟨k0, v0⟩ := hd
    by_cases he : k0 = k
    · subst he
      simp only [eraseKey, if_pos rfl]
      exact lookupJ_eq_none_of_forall_lt (fun e he => sortedK_head_lt h e he)
    · simp only [eraseKey, he, if_false, lookupJ, he, if_false]
      exact ih (sortedK_cons h)

theorem insertSorted_eq_self : ∀ {fs : List (String × JValue)}, sortedK fs = true →
    ∀ {k : String} {v : JValue}, lookupJ fs k = some v → insertSorted fs k v = fs := by
  intro fs
  induction fs with
  | nil => intro _ k v h; simp [lookupJ] at h
  | cons hd tl ih =>
    obtain ⟨k0, v0⟩ := hd
    intro hs k v hl
    by_cases he : k0 = k
    · subst he
      simp [lookupJ] at hl
      subst hl
      simp [insertSorted, strLt_irrefl]
    · simp only [lookupJ, he, if_false] at hl
      have hmem : (k, v) ∈ tl := lookupJ_mem hl
      have hlt : strLt k0 k = true := sortedK_head_lt hs (k, v) hmem
      have h1 : ¬ strLt k k0 = true := by simp [strLt_asymm hlt]
      have h2 : k ≠ k0 := fun hx => he hx.symm
      simp [insertSorted, h1, h2, ih (sortedK_cons hs) hl]

theorem sorted_ext : ∀ {fs gs : List (String × JValue)}, sortedK fs = true →
    sortedK gs = true → (∀ k, lookupJ fs k = lookupJ gs k) → fs = gs := by
  intro fs
  induction fs with
  | nil =>
    intro gs _ _ h
    cases gs with
    | nil => rfl
    | cons hd tl =>
      obtain ⟨k, v⟩ := hd
      have := h k
      simp [lookupJ] at this
  | cons hd tl ih =>
    obtain ⟨k, v⟩ := hd
    intro gs hfs hgs h
    cases gs with
    | nil =>
      have := h k
      simp [lookupJ] at this
    | cons hd2 tl2 =>
      obtain ⟨k2, v2⟩ := hd2
      -- the heads carry the same key
      have hk2mem : (lookupJ ((k, v) :: tl) k2).isSome = true := by
        rw [h k2]; simp [lookupJ]
      have hkmem : (lookupJ ((k2, v2) :: tl2) k).isSome = true := by
        rw [← h k]; simp [lookupJ]
      have hkk2 : k = k2 := by
        by_contra hne
        have hne' : ¬ (k2 = k) := fun hx => hne hx.symm
        -- k2 occurs in tl, so strLt k k2; symmetrically strLt k2 k
        have h1 : strLt k k2 = true := by
          simp only [lookupJ, hne, if_false] at hk2mem
          cases hx : lookupJ tl k2 with
          | none => rw [hx] at hk2mem; simp at hk2mem
          | some w => exact sortedK_head_lt hfs (k2, w) (lookupJ_mem hx)
        have h2 : strLt k2 k = true := by
          simp only [lookupJ, hne', if_false] at hkmem
          cases hx : lookupJ tl2 k with
          | none => rw [hx] at hkmem; simp at hkmem
          | some w => exact sortedK_head_lt hgs (k, w) (lookupJ_mem hx)
        have h3 := strLt_asymm h1
        rw [h2] at h3
        simp at h3
      subst hkk2
      have hvv2 : v = v2 := by
        have := h k
        simpa [lookupJ] using this
      subst hvv2
      have htails : ∀ k', lookupJ tl k' = lookupJ tl2 k' := by
        intro k'
        by_cases he : k' = k
        · subst he
          rw [lookupJ_eq_none_of_forall_lt (fun e he => sortedK_head_lt hfs e he),
            lookupJ_eq_none_of_forall_lt (fun e he => sortedK_head_lt hgs e he)]
        · have hne2 : ¬ (k = k') := fun hx => he hx.symm
          have hk' := h k'
          simpa [lookupJ, hne2] using hk'
      rw [ih (sortedK_cons hfs) (sortedK_cons hgs) htails]

/-! ## Lemmas: well-formedness -/

theorem wfJ_obj {fs : List (String × JValue)} :
    wfJ (.obj fs) = true ↔ (sortedK fs = true ∧ wfF fs = true) := by
  rw [wfJ]
  simp

theorem wfF_cons {k : String} {v : JValue} {rest : List (String × JValue)} :
    wfF ((k, v) :: rest) = true ↔ (wfJ v = true ∧ wfF rest = true) := by
  rw [wfF]
  simp

theorem wfF_forall : ∀ {fs : List (String × JValue)},
    wfF fs = true ↔ ∀ e ∈ fs, wfJ e.2 = true := by
  intro fs
  induction fs with
  | nil => simp [wfF]
  | cons hd tl ih =>
    obtain ⟨k, v⟩ := hd
    rw [wfF_cons, ih]
    constructor
    · rintro ⟨h1, h2⟩ e he
      rcases List.mem_cons.mp he with he' | he'
      · rw [he']; exact h1
      · exact h2 e he'
    · intro h
      exact ⟨h (k, v) (by simp), fun e he => h e (by simp [he])⟩

theorem wfF_lookup {fs : List (String × JValue)} {k : String} {v : JValue}
    (hwf : wfF fs = true) (hl : lookupJ fs k = some v) : wfJ v = true :=
  (wfF_forall.mp hwf) (k, v) (lookupJ_mem hl)

theorem wfF_insertSorted {fs : List (String × JValue)} (hwf : wfF fs = true)
    {v : JValue} (hv : wfJ v = true) (k : String) :
    wfF (insertSorted fs k v) = true := by
  induction fs with
  | nil => simp [insertSorted, wfF_cons, hv, wfF]
  | cons hd tl ih =>
    obtain ⟨k0, v0⟩ := hd
    rw [wfF_cons] at hwf
    by_cases h1 : strLt k k0 = true
    · simp only [insertSorted, h1, if_true]
      rw [wfF_cons, wfF_cons]
      exact ⟨hv, hwf.1, hwf.2⟩
    · by_cases h2 : k = k0
      · subst h2
        simp [insertSorted, strLt_irrefl]
        rw [wfF_cons]
        exact ⟨hv, hwf.2⟩
      · simp [insertSorted, h1, h2]
        rw [wfF_cons]
        exact ⟨hwf.1, ih hwf.2⟩

theorem wfF_eraseKey {fs : List (String × JValue)} (hwf : wfF fs = true) (k : String) :
    wfF (eraseKey fs k) = true := by
  rw [wfF_forall]
  intro e he
  exact (wfF_forall.mp hwf) e ((eraseKey_sublist fs k).mem he)

/-! ## Lemmas: object-path navigation -/

theorem getObjPath_wf : ∀ (segs : List String) (d x : JValue), wfJ d = true →
    getObjPath d segs = some x → wfJ x = true := by
  intro segs
  induction segs with
  | nil =>
    intro d x hd h
    simp [getObjPath] at h
    rw [← h]; exact hd
  | cons k rest ih =>
    intro d x hd h
    cases d with
    | obj fs =>
      simp only [getObjPath, Option.bind_eq_some] at h
      obtain ⟨sub, hsub, hrest⟩ := h
      exact ih sub x (wfF_lookup (wfJ_obj.mp hd).2 hsub) hrest
    | null => simp [getObjPath] at h
    | bool b => simp [getObjPath] at h
    | num n => simp [getObjPath] at h
    | str s => simp [getObjPath] at h
    | arr xs => simp [getObjPath] at h

theorem setObjPath_wf : ∀ (segs : List String) (d v : JValue), wfJ d = true →
    wfJ v = true → wfJ (setObjPath d segs v) = true := by
  intro segs
  induction segs with
  | nil => intro d v _ hv; simpa [setObjPath] using hv
  | cons k rest ih =>
    intro d v hd hv
    cases d with
    | obj fs =>
      simp only [setObjPath]
      have hfs := wfJ_obj.mp hd
      have hsub : wfJ ((lookupJ fs k).getD (.obj [])) = true := by
        cases hx : lookupJ fs k with
        | none => simp [wfJ_obj, sortedK, wfF]
        | some w => simpa using wfF_lookup hfs.2 hx
      rw [wfJ_obj]
      exact ⟨insertSorted_sorted hfs.1 k _,
        wfF_insertSorted hfs.2 (ih _ v hsub hv) k⟩
    | null => simpa [setObjPath] using hd
    | bool b => simpa [setObjPath] using hd
    | num n => simpa [setObjPath] using hd
    | str s => simpa [setObjPath] using hd
    | arr xs => simpa [setObjPath] using hd

theorem getObjPath_setObjPath_self : ∀ (segs : List String) (d x v : JValue),
    getObjPath d segs = some x →
    getObjPath (setObjPath d segs v) segs = some v := by
  intro segs
  induction segs with
  | nil => intro d x v _; simp [getObjPath, setObjPath]
  | cons k rest ih =>
    intro d x v h
    cases d with
    | obj fs =>
      simp only [getObjPath, Option.bind_eq_some] at h
      obtain ⟨sub, hsub, hrest⟩ := h
      simp only [setObjPath, getObjPath, hsub, Option.getD_some,
        lookupJ_insertSorted_self, Option.some_bind]
      exact ih sub x v hrest
    | null => simp [getObjPath] at h
    | bool b => simp [getObjPath] at h
    | num n => simp [getObjPath] at h
    | str s => simp [getObjPath] at h
    | arr xs => simp [getObjPath] at h

theorem setObjPath_append : ∀ (segs : List String) (d : JValue)
    (fs : List (String × JValue)) (k : String) (v : JValue),
    getObjPath d segs = some (.obj fs) →
    setObjPath d (segs ++ [k]) v = setObjPath d segs (.obj (insertSorted fs k v)) := by
  intro segs
  induction segs with
  | nil =>
    intro d fs k v h
    simp only [getObjPath, Option.some.injEq] at h
    subst h
    simp [setObjPath]
  | cons p rest ih =>
    intro d fs k v h
    cases d with
    | obj fs0 =>
      simp only [getObjPath, Option.bind_eq_some] at h
      obtain ⟨sub, hsub, hrest⟩ := h
      have e1 : setObjPath (JValue.obj fs0) ((p :: rest) ++ [k]) v
          = .obj (insertSorted fs0 p (setObjPath sub (rest ++ [k]) v)) := by
        simp [setObjPath, hsub]
      have e2 : setObjPath (JValue.obj fs0) (p :: rest) (JValue.obj (insertSorted fs k v))
          = .obj (insertSorted fs0 p (setObjPath sub rest (JValue.obj (insertSorted fs k v)))) := by
        simp [setObjPath, hsub]
      rw [e1, e2, ih sub fs k v hrest]
    | null => simp [getObjPath] at h
    | bool b => simp [getObjPath] at h
    | num n => simp [getObjPath] at h
    | str s => simp [getObjPath] at h
    | arr xs => simp [getObjPath] at h

theorem getObjPath_append : ∀ (segs : List String) (d v : JValue) (k : String),
    getObjPath d (segs ++ [k]) = some v ↔
    ∃ fs, getObjPath d segs = some (.obj fs) ∧ lookupJ fs k = some v := by
  intro segs
  induction segs with
  | nil =>
    intro d v k
    cases d with
    | obj fs =>
      simp [getObjPath, Option.bind_eq_some]
    | null => simp [getObjPath]
    | bool b => simp [getObjPath]
    | num n => simp [getObjPath]
    | str s => simp [getObjPath]
    | arr xs => simp [getObjPath]
  | cons p rest ih =>
    intro d v k
    cases d with
    | obj fs0 =>
      simp only [List.cons_append, getObjPath, Option.bind_eq_some]
      constructor
      · rintro ⟨sub, hsub, hrest⟩
        obtain ⟨fs, h1, h2⟩ := (ih sub v k).mp hrest
        exact ⟨fs, ⟨sub, hsub, h1⟩, h2⟩
      · rintro ⟨fs, ⟨sub, hsub, h1⟩, h2⟩
        exact ⟨sub, hsub, (ih sub v k).mpr ⟨fs, h1, h2⟩⟩
    | null => simp [getObjPath]
    | bool b => simp [getObjPath]
    | num n => simp [getObjPath]
    | str s => simp [getObjPath]
    | arr xs => simp [getObjPath]

theorem setObjPath_id : ∀ (segs : List String) (d x : JValue), wfJ d = true →
    getObjPath d segs = some x → setObjPath d segs x = d := by
  intro segs
  induction segs with
  | nil =>
    intro d x _ h
    simp only [getObjPath, Option.some.injEq] at h
    rw [setObjPath, h]
  | cons k rest ih =>
    intro d x hd h
    cases d with
    | obj fs =>
      simp only [getObjPath, Option.bind_eq_some] at h
      obtain ⟨sub, hsub, hrest⟩ := h
      have hfs := wfJ_obj.mp hd
      simp only [setObjPath, hsub, Option.getD_some]
      rw [ih sub x (wfF_lookup hfs.2 hsub) hrest, insertSorted_eq_self hfs.1 hsub]
    | null => simp [getObjPath] at h
    | bool b => simp [getObjPath] at h
    | num n => simp [getObjPath] at h
    | str s => simp [getObjPath] at h
    | arr xs => simp [getObjPath] at h

theorem insertSorted_insertSorted : ∀ (fs : List (String × JValue)) (k : String)
    (w v : JValue), insertSorted (insertSorted fs k w) k v = insertSorted fs k v := by
  intro fs k w v
  induction fs with
  | nil => simp [insertSorted, strLt_irrefl]
  | cons hd tl ih =>
    obtain ⟨k0, v0⟩ := hd
    by_cases h1 : strLt k k0 = true
    · simp [insertSorted, h1, strLt_irrefl]
    · by_cases h2 : k = k0
      · subst h2
        simp [insertSorted, h1, strLt_irrefl]
      · simp [insertSorted, h1, h2, ih]

theorem setObjPath_setObjPath : ∀ (segs : List String) (d y x : JValue),
    setObjPath (setObjPath d segs y) segs x = setObjPath d segs x := by
  intro segs
  induction segs with
  | nil => intro d y x; simp [setObjPath]
  | cons k rest ih =>
    intro d y x
    cases d with
    | obj fs =>
      simp only [setObjPath, lookupJ_insertSorted_self, Option.getD_some,
        insertSorted_insertSorted, ih]
    | null => simp [setObjPath]
    | bool b => simp [setObjPath]
    | num n => simp [setObjPath]
    | str s => simp [setObjPath]
    | arr xs => simp [setObjPath]

/-! ## Lemmas: splitting, escaping and pointer parsing -/

theorem splitOnCharList_ne_nil : ∀ (c : Char) (l : List Char), splitOnCharList c l ≠ [] := by
  intro c l
  induction l with
  | nil => simp [splitOnCharList]
  | cons x xs ih =>
    simp only [splitOnCharList]
    by_cases h : x = c
    · simp [h]
    · simp only [h, if_false]
      cases hsp : splitOnCharList c xs with
      | nil => simp
      | cons hd tl => simp

theorem splitOnCharList_append (c : Char) (xs ys : List Char) :
    splitOnCharList c (xs ++ c :: ys) = splitOnCharList c xs ++ splitOnCharList c ys := by
  induction xs with
  | nil => simp [splitOnCharList]
  | cons x xs ih =>
    by_cases h : x = c
    · subst h
      simp [splitOnCharList, ih]
    · simp only [List.cons_append, splitOnCharList, h, if_false]
      simp only [List.append_eq]
      rw [ih]
      cases hsp : splitOnCharList c xs with
      | nil => exact absurd hsp (splitOnCharList_ne_nil c xs)
      | cons hd tl => simp [hsp]

theorem splitOnCharList_of_not_mem {c : Char} : ∀ {l : List Char}, c ∉ l →
    splitOnCharList c l = [l] := by
  intro l h
  induction l with
  | nil => rfl
  | cons x xs ih =>
    have hx : ¬ x = c := fun he => h (by simp [he])
    have hxs : c ∉ xs := fun he => h (by simp [he])
    simp only [splitOnCharList, hx, if_false, ih hxs]

theorem replaceList_single (c : Char) (rep : List Char) : ∀ (l : List Char),
    replaceList [c] rep l = l.flatMap (fun x => if x = c then rep else [x]) := by
  intro l
  induction l with
  | nil => simp [replaceList]
  | cons x xs ih =>
    by_cases h : x = c
    · subst h
      rw [replaceList]
      simp [List.isPrefixOf, ih]
    · rw [replaceList]
      have : ¬ ([c].isPrefixOf (x :: xs) = true) := by
        simp [List.isPrefixOf]
        intro he
        exact absurd he.symm h
      simp only [ne_eq, this, and_false, if_false, ih]
      simp [h]

theorem replaceList_cons_pos {pat : List Char} (rep : List Char) {x : Char} {xs : List Char}
    (hne : pat ≠ []) (hpre : pat.isPrefixOf (x :: xs) = true) :
    replaceList pat rep (x :: xs) = rep ++ replaceList pat rep ((x :: xs).drop pat.length) := by
  rw [replaceList]
  simp [hne, hpre]

theorem replaceList_cons_neg {pat : List Char} (rep : List Char) {x : Char} {xs : List Char}
    (hpre : ¬ pat.isPrefixOf (x :: xs) = true) :
    replaceList pat rep (x :: xs) = x :: replaceList pat rep xs := by
  rw [replaceList]
  simp [hpre]

theorem escapeKey_data (k : String) : (escapeKey k).data = k.data.flatMap encChar := by
  show (strReplace (strReplace k "~" "~0") "/" "~1").data = _
  have h1 : (strReplace k "~" "~0").data
      = k.data.flatMap (fun x => if x = '~' then ['~', '0'] else [x]) := by
    show replaceList "~".data "~0".data k.data = _
    rw [show ("~" : String).data = ['~'] from rfl, show ("~0" : String).data = ['~', '0'] from rfl]
    exact replaceList_single '~' ['~', '0'] k.data
  show replaceList "/".data "~1".data (strReplace k "~" "~0").data = _
  rw [h1, show ("/" : String).data = ['/'] from rfl, show ("~1" : String).data = ['~', '1'] from rfl]
  rw [replaceList_single '/' ['~', '1']]
  rw [List.flatMap_assoc]
  apply List.flatMap_congr
  intro c _
  by_cases h1 : c = '~'
  · simp [h1, encChar]
  · by_cases h2 : c = '/'
    · simp [h1, h2, encChar]
    · simp [h1, h2, encChar]

theorem escapeKey_no_slash (k : String) : '/' ∉ (escapeKey k).data := by
  rw [escapeKey_data]
  intro h
  rcases List.mem_flatMap.mp h with ⟨c, _, hc⟩
  by_cases h1 : c = '~'
  · simp [encChar, h1] at hc
  · by_cases h2 : c = '/'
    · simp [encChar, h1, h2] at hc
    · simp [encChar, h1, h2] at hc
      exact h2 hc.symm

theorem unescape_escape_step1 : ∀ (l : List Char),
    replaceList ['~', '1'] ['/'] (l.flatMap encChar)
      = l.flatMap (fun c => if c = '~' then ['~', '0'] else [c]) := by
  intro l
  induction l with
  | nil => simp [replaceList]
  | cons c cs ih =>
    by_cases h1 : c = '~'
    · subst h1
      have hL : ('~' :: cs).flatMap encChar = '~' :: '0' :: cs.flatMap encChar := by
        simp [encChar]
      rw [hL, replaceList_cons_neg _ (by simp [List.isPrefixOf]),
        replaceList_cons_neg _ (by simp [List.isPrefixOf])]
      simp [ih]
    · by_cases h2 : c = '/'
      · subst h2
        have hL : ('/' :: cs).flatMap encChar = '~' :: '1' :: cs.flatMap encChar := by
          simp [encChar]
        rw [hL, replaceList_cons_pos _ (by simp) (by simp [List.isPrefixOf])]
        simp [ih, h1]
      · have hL : (c :: cs).flatMap encChar = c :: cs.flatMap encChar := by
          simp [encChar, h1, h2]
        rw [hL, replaceList_cons_neg _ (by
          simp [List.isPrefixOf]
          intro he
          exact absurd he.symm h1)]
        simp [ih, h1, h2]

theorem unescape_escape_step2 : ∀ (l : List Char),
    replaceList ['~', '0'] ['~'] (l.flatMap (fun c => if c = '~' then ['~', '0'] else [c]))
      = l := by
  intro l
  induction l with
  | nil => simp [replaceList]
  | cons c cs ih =>
    by_cases h1 : c = '~'
    · subst h1
      have hL : ('~' :: cs).flatMap (fun c => if c = '~' then ['~', '0'] else [c])
          = '~' :: '0' :: cs.flatMap (fun c => if c = '~' then ['~', '0'] else [c]) := by
        simp
      rw [hL, replaceList_cons_pos _ (by simp) (by simp [List.isPrefixOf])]
      simp [ih]
    · have hL : (c :: cs).flatMap (fun c => if c = '~' then ['~', '0'] else [c])
          = c :: cs.flatMap (fun c => if c = '~' then ['~', '0'] else [c]) := by
        simp [h1]
      rw [hL, replaceList_cons_neg _ (by
        simp [List.isPrefixOf]
        intro he
        exact absurd he.symm h1)]
      simp [ih]

theorem unescape_escape (k : String) : unescapeSeg (String.mk (escapeKey k).data) = k := by
  show strReplace (strReplace (String.mk (escapeKey k).data) "~1" "/") "~0" "~" = k
  have e1 : strReplace (String.mk (escapeKey k).data) "~1" "/"
      = String.mk (k.data.flatMap (fun c => if c = '~' then ['~', '0'] else [c])) := by
    show String.mk (replaceList ("~1").data ("/").data (escapeKey k).data) = _
    rw [escapeKey_data, show ("~1" : String).data = ['~', '1'] from rfl,
      show ("/" : String).data = ['/'] from rfl, unescape_escape_step1]
  rw [e1]
  show String.mk (replaceList ("~0").data ("~").data _) = k
  rw [show ("~0" : String).data = ['~', '0'] from rfl,
    show ("~" : String).data = ['~'] from rfl]
  show String.mk (replaceList ['~', '0'] ['~'] (k.data.flatMap _)) = k
  rw [unescape_escape_step2]

theorem string_data_append (a b : String) : (a ++ b).data = a.data ++ b.data := rfl

theorem parse_pointer_startsWith {p : String} {segs : List String}
    (h : parse_pointer p = .ok segs) : strStartsWith p "/" = true := by
  by_cases hs : strStartsWith p "/" = true
  · exact hs
  · simp [parse_pointer, hs] at h

theorem parse_pointer_json_pointer {ptr : String} {segs : List String} (k : String)
    (h : PtrDenotes ptr segs) :
    parse_pointer (json_pointer ptr k) = .ok (segs ++ [k]) := by
  have hesc : splitOnCharList '/' (escapeKey k).data = [(escapeKey k).data] :=
    splitOnCharList_of_not_mem (escapeKey_no_slash k)
  rcases h with ⟨h1, h2⟩ | ⟨h1, h2⟩
  · subst h1; subst h2
    have hdata : (json_pointer "" k).data = '/' :: (escapeKey k).data := by
      show (("" ++ "/" ++ escapeKey k)).data = _
      rw [string_data_append, string_data_append]
      rfl
    have hsw : strStartsWith (json_pointer "" k) "/" = true := by
      show (("/" : String).data).isPrefixOf (json_pointer "" k).data = true
      rw [hdata]
      simp [List.isPrefixOf]
    simp only [parse_pointer, hsw, if_pos, hdata, List.drop_succ_cons, List.drop_zero, hesc]
    simp [unescape_escape]
  · have hsw0 : strStartsWith ptr "/" = true := parse_pointer_startsWith h2
    obtain ⟨rest, hrest⟩ : ∃ rest, ptr.data = '/' :: rest := by
      have hp := List.isPrefixOf_iff_prefix.mp hsw0
      rcases hp with ⟨t, ht⟩
      exact ⟨t, ht.symm⟩
    have hdata : (json_pointer ptr k).data = '/' :: (rest ++ '/' :: (escapeKey k).data) := by
      show ((ptr ++ "/" ++ escapeKey k)).data = _
      rw [string_data_append, string_data_append, hrest]
      simp
    have hsw : strStartsWith (json_pointer ptr k) "/" = true := by
      show (("/" : String).data).isPrefixOf (json_pointer ptr k).data = true
      rw [hdata]
      simp [List.isPrefixOf]
    simp only [parse_pointer, hsw, if_pos, hdata, List.drop_succ_cons, List.drop_zero]
    rw [splitOnCharList_append, List.map_append, hesc]
    simp only [List.map_cons, List.map_nil, unescape_escape]
    simp only [parse_pointer, hsw0, if_pos, hrest, List.drop_succ_cons, List.drop_zero] at h2
    have hsegs : (splitOnCharList '/' rest).map (fun seg => unescapeSeg (String.mk seg)) = segs := by
      injection h2
    rw [hsegs]

theorem json_pointer_ne_empty (ptr k : String) : json_pointer ptr k ≠ "" := by
  intro h
  have : (json_pointer ptr k).data = [] := by rw [h]
  rw [show (json_pointer ptr k).data = ptr.data ++ '/' :: (escapeKey k).data by
    show ((ptr ++ "/" ++ escapeKey k)).data = _
    rw [string_data_append, string_data_append]
    simp] at this
  simp at this

theorem PtrDenotes_extend {ptr : String} {segs : List String} (k : String)
    (h : PtrDenotes ptr segs) : PtrDenotes (json_pointer ptr k) (segs ++ [k]) :=
  Or.inr ⟨json_pointer_ne_empty ptr k, parse_pointer_json_pointer k h⟩

theorem PtrDenotes_nil_empty {ptr : String} (h : PtrDenotes ptr []) : ptr = "" := by
  rcases h with ⟨h1, _⟩ | ⟨h1, h2⟩
  · exact h1
  · exfalso
    by_cases hs : strStartsWith ptr "/" = true
    · simp only [parse_pointer, hs, if_pos, Except.ok.injEq] at h2
      have := splitOnCharList_ne_nil '/' (ptr.data.drop 1)
      rw [show splitOnCharList '/' (ptr.data.drop 1) = [] from
        List.map_eq_nil_iff.mp h2] at this
      exact this rfl
    · simp [parse_pointer, hs] at h2

theorem PtrDenotes_empty_not : ∀ {p : String}, parse_pointer p = .ok [] → False := by
  intro p h
  by_cases hs : strStartsWith p "/" = true
  · simp only [parse_pointer, hs, if_pos, Except.ok.injEq] at h
    have := splitOnCharList_ne_nil '/' (p.data.drop 1)
    rw [List.map_eq_nil_iff.mp h] at this
    exact this rfl
  · simp [parse_pointer, hs] at h

theorem parse_pointer_not_empty {p : String} {segs : List String}
    (h : parse_pointer p = .ok segs) : p.isEmpty = false := by
  have hs := parse_pointer_startsWith h
  cases p with
  | mk data =>
    cases data with
    | nil => simp [strStartsWith, List.isPrefixOf] at hs
    | cons c cs =>
      simp [String.isEmpty, String.endPos, String.utf8ByteSize, String.Pos.ext_iff]
      have := Char.utf8Size_pos c
      omega

/-! ## Lemmas: folded erases and upserts -/

theorem lookupJ_none_iff {fs : List (String × JValue)} {k : String} :
    lookupJ fs k = none ↔ ∀ v, (k, v) ∉ fs := by
  induction fs with
  | nil => simp [lookupJ]
  | cons hd tl ih =>
    rcases hd with ⟨k', v'⟩
    by_cases h : k' = k
    · subst h
      simp only [lookupJ, if_pos rfl]
      constructor
      · intro h
        simp at h
      · intro hall
        exact absurd (List.mem_cons_self _ _) (hall v')
    · simp only [lookupJ, h, if_false, ih]
      constructor
      · intro hall v hmem
        rcases List.mem_cons.mp hmem with he | ht
        · exact h (congrArg Prod.fst he).symm
        · exact hall v ht
      · intro hall v hmem
        exact hall v (List.mem_cons_of_mem _ hmem)

theorem lookupJ_sublist_none {fs gs : List (String × JValue)} {k : String}
    (hsub : gs.Sublist fs) (h : lookupJ fs k = none) : lookupJ gs k = none :=
  lookupJ_none_iff.mpr (fun v hmem => lookupJ_none_iff.mp h v (hsub.mem hmem))

theorem lookupJ_of_mem_nodup {fs : List (String × JValue)} {k : String} {v : JValue}
    (hmem : (k, v) ∈ fs) (hnd : (fs.map Prod.fst).Nodup) : lookupJ fs k = some v := by
  induction fs with
  | nil => cases hmem
  | cons hd tl ih =>
    rcases hd with ⟨k', v'⟩
    rcases List.mem_cons.mp hmem with he | ht
    · rcases Prod.mk.injEq .. ▸ he with ⟨h1, h2⟩
      subst h1; subst h2
      simp [lookupJ]
    · have hk : ¬ k' = k := by
        intro h
        subst h
        have : k' ∈ tl.map Prod.fst := List.mem_map.mpr ⟨(k', v), ht, rfl⟩
        exact (List.nodup_cons.mp hnd).1 this
      simp only [lookupJ, hk, if_false]
      exact ih ht (List.nodup_cons.mp hnd).2

theorem eraseKeys_cons (fs : List (String × JValue)) (k : String) (ks : List String) :
    eraseKeys fs (k :: ks) = eraseKeys (eraseKey fs k) ks := rfl

theorem eraseKeys_sorted : ∀ (ks : List String) {fs : List (String × JValue)},
    sortedK fs = true → sortedK (eraseKeys fs ks) = true := by
  intro ks
  induction ks with
  | nil => intro fs h; exact h
  | cons k ks ih =>
    intro fs h
    rw [eraseKeys_cons]
    exact ih (eraseKey_sorted h k)

theorem wfF_eraseKeys : ∀ (ks : List String) {fs : List (String × JValue)},
    wfF fs = true → wfF (eraseKeys fs ks) = true := by
  intro ks
  induction ks with
  | nil => intro fs h; exact h
  | cons k ks ih =>
    intro fs h
    rw [eraseKeys_cons]
    exact ih (wfF_eraseKey h k)

theorem eraseKeys_sublist : ∀ (ks : List String) (fs : List (String × JValue)),
    (eraseKeys fs ks).Sublist fs := by
  intro ks
  induction ks with
  | nil => intro fs; exact List.Sublist.refl fs
  | cons k ks ih =>
    intro fs
    rw [eraseKeys_cons]
    exact (ih (eraseKey fs k)).trans (eraseKey_sublist fs k)

theorem lookupJ_eraseKeys_not_mem : ∀ (ks : List String) (fs : List (String × JValue))
    (k : String), k ∉ ks → lookupJ (eraseKeys fs ks) k = lookupJ fs k := by
  intro ks
  induction ks with
  | nil => intro fs k _; rfl
  | cons k0 ks ih =>
    intro fs k hk
    rw [eraseKeys_cons, ih _ _ (fun h => hk (List.mem_cons_of_mem _ h))]
    exact lookupJ_eraseKey_ne fs k0 k (fun h => hk (by simp [h]))

theorem lookupJ_eraseKeys_mem : ∀ (ks : List String) {fs : List (String × JValue)}
    {k : String}, sortedK fs = true → k ∈ ks → lookupJ (eraseKeys fs ks) k = none := by
  intro ks
  induction ks with
  | nil => intro fs k _ h; cases h
  | cons k0 ks ih =>
    intro fs k hs hk
    rw [eraseKeys_cons]
    rcases List.mem_cons.mp hk with he | ht
    · subst he
      exact lookupJ_sublist_none (eraseKeys_sublist ks _) (lookupJ_eraseKey_self hs k)
    · exact ih (eraseKey_sorted hs k0) ht

theorem upsertList_cons (fs : List (String × JValue)) (k : String) (v : JValue)
    (es : List (String × JValue)) :
    upsertList fs ((k, v) :: es) = upsertList (insertSorted fs k v) es := rfl

theorem upsertList_sorted : ∀ (es : List (String × JValue)) {fs : List (String × JValue)},
    sortedK fs = true → sortedK (upsertList fs es) = true := by
  intro es
  induction es with
  | nil => intro fs h; exact h
  | cons e es ih =>
    intro fs h
    rcases e with ⟨k, v⟩
    rw [upsertList_cons]
    exact ih (insertSorted_sorted h k v)

theorem wfF_upsertList : ∀ (es : List (String × JValue)) {fs : List (String × JValue)},
    wfF fs = true → (∀ e ∈ es, wfJ e.2 = true) → wfF (upsertList fs es) = true := by
  intro es
  induction es with
  | nil => intro fs h _; exact h
  | cons e es ih =>
    intro fs h hall
    rcases e with ⟨k, v⟩
    rw [upsertList_cons]
    exact ih (wfF_insertSorted h (hall (k, v) (by simp)) k)
      (fun e he => hall e (List.mem_cons_of_mem _ he))

theorem lookupJ_upsertList_not_mem : ∀ (es : List (String × JValue))
    (fs : List (String × JValue)) (k : String), k ∉ es.map Prod.fst →
    lookupJ (upsertList fs es) k = lookupJ fs k := by
  intro es
  induction es with
  | nil => intro fs k _; rfl
  | cons e es ih =>
    intro fs k hk
    rcases e with ⟨k0, v0⟩
    rw [upsertList_cons, ih _ _ (fun h => hk (by simp; right; simpa using h))]
    exact lookupJ_insertSorted_ne fs k0 v0 k (fun h => hk (by simp [h]))

theorem lookupJ_upsertList_mem : ∀ (es : List (String × JValue))
    (fs : List (String × JValue)) {k : String} {v : JValue},
    (es.map Prod.fst).Nodup → (k, v) ∈ es →
    lookupJ (upsertList fs es) k = some v := by
  intro es
  induction es with
  | nil => intro fs k v _ h; cases h
  | cons e es ih =>
    intro fs k v hnd hmem
    rcases e with ⟨k0, v0⟩
    rw [List.map_cons] at hnd
    have hnd' := List.nodup_cons.mp hnd
    rw [upsertList_cons]
    rcases List.mem_cons.mp hmem with he | ht
    · rcases Prod.mk.injEq .. ▸ he with ⟨h1, h2⟩
      subst h1; subst h2
      rw [lookupJ_upsertList_not_mem es _ k hnd'.1]
      exact lookupJ_insertSorted_self fs k v
    · exact ih _ hnd'.2 ht

theorem upsertList_eq_of_covered {fs n : List (String × JValue)}
    (hfs : sortedK fs = true) (hn : sortedK n = true)
    (hcov : ∀ e ∈ fs, (lookupJ n e.1).isSome = true) :
    upsertList fs n = n := by
  apply sorted_ext (upsertList_sorted n hfs) hn
  intro k
  by_cases hk : k ∈ n.map Prod.fst
  · rcases List.mem_map.mp hk with ⟨⟨k', v⟩, hmem, he⟩
    cases he
    rw [lookupJ_upsertList_mem n fs (sortedK_nodup_keys hn) hmem,
      lookupJ_of_mem_nodup hmem (sortedK_nodup_keys hn)]
  · have hnone : lookupJ n k = none := by
      rw [lookupJ_none_iff]
      intro v hmem
      exact hk (List.mem_map.mpr ⟨(k, v), hmem, rfl⟩)
    rw [lookupJ_upsertList_not_mem n fs k hk, hnone]
    cases hl : lookupJ fs k with
    | none => rfl
    | some v =>
      have := hcov (k, v) (lookupJ_mem hl)
      rw [hnone] at this
      cases this

/-! ## Lemmas: the op loop of diff::apply -/

theorem applyOps_nil (d : JValue) : applyOps d [] = .ok d := rfl

theorem applyOps_cons (d : JValue) (op : PatchOp) (ops : List PatchOp) :
    applyOps d (op :: ops) = match apply_op d op with
      | .ok d1 => applyOps d1 ops
      | .error e => .error e := by
  show List.foldlM apply_op d (op :: ops) = _
  rw [List.foldlM_cons]
  cases h : apply_op d op
  · rfl
  · rfl

theorem applyOps_append : ∀ (as bs : List PatchOp) (d : JValue),
    applyOps d (as ++ bs) = match applyOps d as with
      | .ok d1 => applyOps d1 bs
      | .error e => .error e := by
  intro as
  induction as with
  | nil => intro bs d; rfl
  | cons a as ih =>
    intro bs d
    rw [List.cons_append, applyOps_cons, applyOps_cons]
    cases h : apply_op d a with
    | error e => rfl
    | ok d1 => exact ih bs d1

/-! ## Lemmas: set_at_pointer / remove_at_pointer on an object path -/

theorem set_parents_obj : ∀ (segs : List String) (d : JValue)
    (fs : List (String × JValue)) (k : String) (v : JValue) (me : Bool) (ptr : String),
    getObjPath d segs = some (.obj fs) →
    set_parents d segs k v me ptr =
      if me ∧ (lookupJ fs k).isNone then .error (.pathNotFound ptr)
      else .ok (setObjPath d segs (.obj (insertSorted fs k v))) := by
  intro segs
  induction segs with
  | nil =>
    intro d fs k v me ptr hget
    have hd : d = .obj fs := by simpa [getObjPath] using hget
    subst hd
    simp [set_parents, set_final, setObjPath]
  | cons p rest ih =>
    intro d fs k v me ptr hget
    cases d with
    | obj fs0 =>
      cases hl : lookupJ fs0 p with
      | none => simp [getObjPath, hl] at hget
      | some sub =>
        have hget' : getObjPath sub rest = some (.obj fs) := by
          simpa [getObjPath, hl] using hget
        have e1 : set_parents (.obj fs0) (p :: rest) k v me ptr
            = (set_parents sub rest k v me ptr).map
                (fun s => .obj (insertSorted fs0 p s)) := by
          simp [set_parents, hl]
        have e2 : setObjPath (.obj fs0) (p :: rest) (.obj (insertSorted fs k v))
            = .obj (insertSorted fs0 p
                (setObjPath sub rest (.obj (insertSorted fs k v)))) := by
          simp [setObjPath, hl]
        rw [e1, ih sub fs k v me ptr hget', e2]
        by_cases hc : me = true ∧ (lookupJ fs k).isNone = true
        · simp [hc, Except.map]
        · simp only [hc, if_false]
          rfl
    | null => simp [getObjPath] at hget
    | bool b => simp [getObjPath] at hget
    | num n => simp [getObjPath] at hget
    | str s => simp [getObjPath] at hget
    | arr xs => simp [getObjPath] at hget

theorem set_at_pointer_obj {d : JValue} {ptr : String} {segs : List String} {k : String}
    {fs : List (String × JValue)} (v : JValue) (me : Bool)
    (hp : parse_pointer ptr = .ok (segs ++ [k]))
    (hget : getObjPath d segs = some (.obj fs)) :
    set_at_pointer d ptr v me =
      if me ∧ (lookupJ fs k).isNone then .error (.pathNotFound ptr)
      else .ok (setObjPath d segs (.obj (insertSorted fs k v))) := by
  have hEmpty : ptr.isEmpty = false := parse_pointer_not_empty hp
  rw [set_at_pointer]
  rw [hEmpty]
  simp only [Bool.false_eq_true, if_false]
  rw [hp]
  show set_at_pointer.match_1 _ (segs ++ [k]).getLast? _ _ = _
  rw [List.getLast?_concat, List.dropLast_concat]
  exact set_parents_obj segs d fs k v me ptr hget

theorem remove_parents_obj : ∀ (segs : List String) (d : JValue)
    (fs : List (String × JValue)) (k : String) (rv : JValue) (ptr : String),
    getObjPath d segs = some (.obj fs) →
    lookupJ fs k = some rv →
    remove_parents d segs k ptr = .ok (rv, setObjPath d segs (.obj (eraseKey fs k))) := by
  intro segs
  induction segs with
  | nil =>
    intro d fs k rv ptr hget hl
    have hd : d = .obj fs := by simpa [getObjPath] using hget
    subst hd
    simp [remove_parents, remove_final, hl, setObjPath]
  | cons p rest ih =>
    intro d fs k rv ptr hget hl
    cases d with
    | obj fs0 =>
      cases hl0 : lookupJ fs0 p with
      | none => simp [getObjPath, hl0] at hget
      | some sub =>
        have hget' : getObjPath sub rest = some (.obj fs) := by
          simpa [getObjPath, hl0] using hget
        have e1 : remove_parents (.obj fs0) (p :: rest) k ptr
            = (remove_parents sub rest k ptr).map
                (fun rs => (rs.1, .obj (insertSorted fs0 p rs.2))) := by
          simp [remove_parents, hl0]
        have e2 : setObjPath (.obj fs0) (p :: rest) (.obj (eraseKey fs k))
            = .obj (insertSorted fs0 p
                (setObjPath sub rest (.obj (eraseKey fs k)))) := by
          simp [setObjPath, hl0]
        rw [e1, ih sub fs k rv ptr hget' hl, e2]
        rfl
    | null => simp [getObjPath] at hget
    | bool b => simp [getObjPath] at hget
    | num n => simp [getObjPath] at hget
    | str s => simp [getObjPath] at hget
    | arr xs => simp [getObjPath] at hget

theorem remove_at_pointer_obj {d : JValue} {ptr : String} {segs : List String} {k : String}
    {fs : List (String × JValue)} {rv : JValue}
    (hp : parse_pointer ptr = .ok (segs ++ [k]))
    (hget : getObjPath d segs = some (.obj fs))
    (hl : lookupJ fs k = some rv) :
    remove_at_pointer d ptr = .ok (rv, setObjPath d segs (.obj (eraseKey fs k))) := by
  have hEmpty : ptr.isEmpty = false := parse_pointer_not_empty hp
  rw [remove_at_pointer]
  rw [hEmpty]
  simp only [Bool.false_eq_true, if_false]
  rw [hp]
  show (match (segs ++ [k]).getLast? with
    | some last => remove_parents d (segs ++ [k]).dropLast last ptr
    | none => Except.error (PatchError.invalidPointer ptr)) = _
  rw [List.getLast?_concat, List.dropLast_concat]
  exact remove_parents_obj segs d fs k rv ptr hget hl

/-- Applying the single replace op that compute_diff emits for a changed
leaf substitutes the new value at the denoted path. -/
theorem applyOps_replace {d old new : JValue} {segs : List String} {ptr : String}
    (hp : PtrDenotes ptr segs) (hget : getObjPath d segs = some old) :
    applyOps d [PatchOp.replace ptr new] = .ok (setObjPath d segs new) := by
  rcases List.eq_nil_or_concat segs with hnil | ⟨init, k, hconcat⟩
  · subst hnil
    have hptr : ptr = "" := PtrDenotes_nil_empty hp
    subst hptr
    rw [applyOps_cons]
    show (match set_at_pointer d "" new true with
      | .ok d1 => applyOps d1 []
      | .error e => .error e) = _
    simp [set_at_pointer, String.isEmpty, setObjPath, applyOps_nil]
  · rw [List.concat_eq_append] at hconcat
    subst hconcat
    have hpp : parse_pointer ptr = .ok (init ++ [k]) := by
      rcases hp with ⟨_, h2⟩ | ⟨_, h2⟩
      · simp at h2
      · exact h2
    rcases (getObjPath_append init d old k).mp hget with ⟨fs, hget0, hl⟩
    rw [applyOps_cons]
    show (match apply_op d (.replace ptr new) with
      | .ok d1 => applyOps d1 []
      | .error e => .error e) = _
    show (match set_at_pointer d ptr new true with
      | .ok d1 => applyOps d1 []
      | .error e => .error e) = _
    rw [set_at_pointer_obj new true hpp hget0]
    have hcond : ¬ (true = true ∧ (lookupJ fs k).isNone = true) := by
      intro hc
      rw [hl] at hc
      simp at hc
    rw [if_neg hcond]
    rw [setObjPath_append init d fs k new hget0]
    rfl

/-- The ite form of the replace/no-op arm of compute_diff. -/
theorem applyOps_ite_replace {d old new : JValue} {segs : List String} {ptr : String}
    (hd : wfJ d = true) (hp : PtrDenotes ptr segs) (hget : getObjPath d segs = some old) :
    applyOps d (if old ≠ new then [PatchOp.replace ptr new] else [])
      = .ok (setObjPath d segs new) := by
  by_cases h : old = new
  · rw [if_neg (by simpa using h)]
    rw [applyOps_nil, ← h, setObjPath_id segs d old hd hget]
  · rw [if_pos h]
    exact applyOps_replace hp hget

/-! ## Lemmas: the removes and upserts halves of an object diff -/

theorem diff_removes_eq_map (p : String) : ∀ (o : List (String × JValue))
    (n : List (String × JValue)),
    diff_removes p o n = (removedKeys o n).map (fun k => .remove (json_pointer p k)) := by
  intro o n
  induction o with
  | nil => rfl
  | cons kv o ih =>
    cases h : lookupJ n kv.1 with
    | none =>
      simp [diff_removes, removedKeys, List.filterMap_cons, List.filter_cons, h] at ih ⊢
      exact ih
    | some v =>
      simp [diff_removes, removedKeys, List.filterMap_cons, List.filter_cons, h] at ih ⊢
      exact ih

theorem mem_removedKeys {o n : List (String × JValue)} {k : String} :
    k ∈ removedKeys o n ↔ (∃ v, (k, v) ∈ o) ∧ lookupJ n k = none := by
  constructor
  · intro h
    rcases List.mem_map.mp h with ⟨⟨k', v⟩, hmem, he⟩
    cases he
    have := List.mem_filter.mp hmem
    exact ⟨⟨v, this.1⟩, by simpa [Option.isNone_iff_eq_none] using this.2⟩
  · rintro ⟨⟨v, hmem⟩, hnone⟩
    exact List.mem_map.mpr ⟨(k, v),
      List.mem_filter.mpr ⟨hmem, by simp [hnone]⟩, rfl⟩

theorem removedKeys_nodup {o : List (String × JValue)} (n : List (String × JValue))
    (hs : sortedK o = true) : (removedKeys o n).Nodup := by
  have hsub : ((o.filter (fun kv => (lookupJ n kv.1).isNone)).map Prod.fst).Sublist
      (o.map Prod.fst) := (List.filter_sublist o).map Prod.fst
  exact (sortedK_nodup_keys hs).sublist hsub

/-- Applying the remove ops for a list of distinct keys present in the
object at the denoted path erases exactly those keys. -/
theorem applyOps_removes : ∀ (ks : List String) (d : JValue) (segs : List String)
    (ptr : String) (fs : List (String × JValue)),
    wfJ d = true →
    PtrDenotes ptr segs →
    getObjPath d segs = some (.obj fs) →
    ks.Nodup →
    (∀ k ∈ ks, (lookupJ fs k).isSome = true) →
    applyOps d (ks.map (fun k => .remove (json_pointer ptr k)))
      = .ok (setObjPath d segs (.obj (eraseKeys fs ks))) := by
  intro ks
  induction ks with
  | nil =>
    intro d segs ptr fs hd hp hget _ _
    rw [List.map_nil, applyOps_nil]
    show _ = Except.ok (setObjPath d segs (.obj fs))
    rw [setObjPath_id segs d (.obj fs) hd hget]
  | cons k ks ih =>
    intro d segs ptr fs hd hp hget hnd hpres
    have hwfo : wfJ (.obj fs) = true := getObjPath_wf segs d _ hd hget
    have hso : sortedK fs = true := (wfJ_obj.mp hwfo).1
    have hwff : wfF fs = true := (wfJ_obj.mp hwfo).2
    have hpk : parse_pointer (json_pointer ptr k) = .ok (segs ++ [k]) :=
      parse_pointer_json_pointer k hp
    rcases Option.isSome_iff_exists.mp (hpres k (by simp)) with ⟨rv, hrv⟩
    rw [List.map_cons, applyOps_cons]
    show (match apply_op d (.remove (json_pointer ptr k)) with
      | .ok d1 => applyOps d1 (ks.map (fun k => .remove (json_pointer ptr k)))
      | .error e => .error e) = _
    have hstep : apply_op d (.remove (json_pointer ptr k))
        = .ok (setObjPath d segs (.obj (eraseKey fs k))) := by
      show (remove_at_pointer d (json_pointer ptr k)).map Prod.snd = _
      rw [remove_at_pointer_obj hpk hget hrv]
      rfl
    rw [hstep]
    show applyOps (setObjPath d segs (.obj (eraseKey fs k)))
      (ks.map (fun k => .remove (json_pointer ptr k))) = _
    have hd1 : wfJ (setObjPath d segs (.obj (eraseKey fs k))) = true :=
      setObjPath_wf segs d _ hd (wfJ_obj.mpr ⟨eraseKey_sorted hso k, wfF_eraseKey hwff k⟩)
    have hget1 : getObjPath (setObjPath d segs (.obj (eraseKey fs k))) segs
        = some (.obj (eraseKey fs k)) :=
      getObjPath_setObjPath_self segs d _ _ hget
    have hnd' := List.nodup_cons.mp hnd
    have hpres' : ∀ k' ∈ ks, (lookupJ (eraseKey fs k) k').isSome = true := by
      intro k' hk'
      have hne : k' ≠ k := fun he => hnd'.1 (he ▸ hk')
      rw [lookupJ_eraseKey_ne fs k k' hne]
      exact hpres k' (List.mem_cons_of_mem _ hk')
    rw [ih _ segs ptr _ hd1 hp hget1 hnd'.2 hpres']
    rw [setObjPath_setObjPath, eraseKeys_cons]

/-- Applying the upsert half of an object diff performs the folded
insertions, provided the recursive-diff induction hypothesis holds for
every new value small enough. -/
theorem applyOps_upserts (B : Nat)
    (IH : ∀ (w : JValue), sizeOf w ≤ B → ∀ (ov d : JValue) (segs : List String) (ptr : String),
      wfJ d = true → wfJ w = true → PtrDenotes ptr segs →
      getObjPath d segs = some ov →
      applyOps d (compute_diff ptr ov w) = .ok (setObjPath d segs w)) :
    ∀ (entries o : List (String × JValue)) (d : JValue)
      (segs : List String) (ptr : String) (fs : List (String × JValue)),
    (∀ e ∈ entries, sizeOf e.2 ≤ B) →
    wfJ d = true →
    PtrDenotes ptr segs →
    getObjPath d segs = some (.obj fs) →
    (∀ e ∈ entries, wfJ e.2 = true) →
    (entries.map Prod.fst).Nodup →
    (∀ e ∈ entries, lookupJ fs e.1 = lookupJ o e.1) →
    applyOps d (diff_upserts ptr o entries)
      = .ok (setObjPath d segs (.obj (upsertList fs entries))) := by
  intro entries
  induction entries with
  | nil =>
    intro o d segs ptr fs _ hd hp hget _ _ _
    have h0 : diff_upserts ptr o [] = [] := by rw [diff_upserts]
    rw [h0, applyOps_nil]
    show _ = Except.ok (setObjPath d segs (.obj fs))
    rw [setObjPath_id segs d (.obj fs) hd hget]
  | cons e rest ihe =>
    intro o d segs ptr fs hsz hd hp hget hwfe hnd hagree
    rcases e with ⟨k, nv⟩
    have hwfo := getObjPath_wf segs d _ hd hget
    have hso : sortedK fs = true := (wfJ_obj.mp hwfo).1
    have hwff : wfF fs = true := (wfJ_obj.mp hwfo).2
    have hwfnv : wfJ nv = true := hwfe (k, nv) (by simp)
    have hlf : lookupJ fs k = lookupJ o k := hagree (k, nv) (by simp)
    have hstep : applyOps d (match lookupJ o k with
        | none => [PatchOp.add (json_pointer ptr k) nv]
        | some ov => if ov ≠ nv then compute_diff (json_pointer ptr k) ov nv else [])
        = .ok (setObjPath d segs (.obj (insertSorted fs k nv))) := by
      cases hok : lookupJ o k with
      | none =>
        show applyOps d [PatchOp.add (json_pointer ptr k) nv] = _
        rw [applyOps_cons]
        show (match set_at_pointer d (json_pointer ptr k) nv false with
          | .ok d1 => applyOps d1 []
          | .error e => .error e) = _
        rw [set_at_pointer_obj nv false (parse_pointer_json_pointer k hp) hget]
        rw [if_neg (by simp)]
        rfl
      | some ov =>
        show applyOps d (if ov ≠ nv then compute_diff (json_pointer ptr k) ov nv else [])
          = .ok (setObjPath d segs (.obj (insertSorted fs k nv)))
        by_cases heq : ov = nv
        · rw [if_neg (by simp [heq])]
          rw [applyOps_nil]
          have hins : insertSorted fs k nv = fs :=
            insertSorted_eq_self hso (by rw [hlf, hok, heq])
          rw [hins, setObjPath_id segs d (.obj fs) hd hget]
        · rw [if_pos heq]
          have hgetov : getObjPath d (segs ++ [k]) = some ov :=
            (getObjPath_append segs d ov k).mpr ⟨fs, hget, by rw [hlf]; exact hok⟩
          have hszn : sizeOf nv ≤ B := by simpa using hsz (k, nv) (by simp)
          rw [IH nv hszn ov d (segs ++ [k]) (json_pointer ptr k) hd hwfnv
            (PtrDenotes_extend k hp) hgetov]
          rw [setObjPath_append segs d fs k nv hget]
    have hdu : diff_upserts ptr o ((k, nv) :: rest)
        = (match lookupJ o k with
          | none => [PatchOp.add (json_pointer ptr k) nv]
          | some ov => if ov ≠ nv then compute_diff (json_pointer ptr k) ov nv else [])
          ++ diff_upserts ptr o rest := by
      rw [diff_upserts]
    rw [hdu, applyOps_append, hstep]
    show applyOps (setObjPath d segs (.obj (insertSorted fs k nv)))
      (diff_upserts ptr o rest) = _
    have hd1 : wfJ (setObjPath d segs (.obj (insertSorted fs k nv))) = true :=
      setObjPath_wf segs d _ hd
        (wfJ_obj.mpr ⟨insertSorted_sorted hso k nv, wfF_insertSorted hwff hwfnv k⟩)
    have hget1 := getObjPath_setObjPath_self segs d _ (.obj (insertSorted fs k nv)) hget
    rw [List.map_cons] at hnd
    have hnd' := List.nodup_cons.mp hnd
    have hagree1 : ∀ e ∈ rest, lookupJ (insertSorted fs k nv) e.1 = lookupJ o e.1 := by
      intro e he
      have hne : e.1 ≠ k := fun h => hnd'.1 (h ▸ List.mem_map.mpr ⟨e, he, rfl⟩)
      rw [lookupJ_insertSorted_ne fs k nv e.1 hne]
      exact hagree e (List.mem_cons_of_mem _ he)
    rw [ihe o _ segs ptr _ (fun e he => hsz e (List.mem_cons_of_mem _ he)) hd1 hp hget1
      (fun e he => hwfe e (List.mem_cons_of_mem _ he)) hnd'.2 hagree1]
    rw [setObjPath_setObjPath, upsertList_cons]

/-- One level of the object/object case of the roundtrip: removes then
upserts rebuild the new object at the denoted path. -/
theorem compute_diff_apply_obj (B : Nat)
    (IH : ∀ (new old d : JValue) (segs : List String) (ptr : String),
      sizeOf new ≤ B → wfJ d = true → wfJ new = true → PtrDenotes ptr segs →
      getObjPath d segs = some old →
      applyOps d (compute_diff ptr old new) = .ok (setObjPath d segs new)) :
    ∀ (o n : List (String × JValue)) (d : JValue) (segs : List String) (ptr : String),
    sizeOf (JValue.obj n) ≤ B + 1 → wfJ d = true → wfJ (JValue.obj n) = true →
    PtrDenotes ptr segs → getObjPath d segs = some (JValue.obj o) →
    applyOps d (compute_diff ptr (.obj o) (.obj n)) = .ok (setObjPath d segs (.obj n)) := by
  intro o n d segs ptr hsz hd hn hp hget
  have hwfo := getObjPath_wf segs d _ hd hget
  have hso : sortedK o = true := (wfJ_obj.mp hwfo).1
  have hwfO : wfF o = true := (wfJ_obj.mp hwfo).2
  have hsn : sortedK n = true := (wfJ_obj.mp hn).1
  have hwfN : wfF n = true := (wfJ_obj.mp hn).2
  rw [compute_diff.eq_def]
  show applyOps d (diff_removes ptr o n ++ diff_upserts ptr o n) = _
  rw [applyOps_append, diff_removes_eq_map]
  rw [applyOps_removes (removedKeys o n) d segs ptr o hd hp hget
    (removedKeys_nodup n hso)
    (fun k hk => by
      rcases mem_removedKeys.mp hk with ⟨⟨v, hv⟩, _⟩
      exact lookupJ_isSome_of_mem hv)]
  show applyOps (setObjPath d segs (.obj (eraseKeys o (removedKeys o n))))
    (diff_upserts ptr o n) = _
  have hd1 : wfJ (setObjPath d segs (.obj (eraseKeys o (removedKeys o n)))) = true :=
    setObjPath_wf segs d _ hd
      (wfJ_obj.mpr ⟨eraseKeys_sorted _ hso, wfF_eraseKeys _ hwfO⟩)
  have hget1 := getObjPath_setObjPath_self segs d _
    (.obj (eraseKeys o (removedKeys o n))) hget
  have hszn : sizeOf n ≤ B := by
    simp at hsz
    omega
  have hagree : ∀ e ∈ n, lookupJ (eraseKeys o (removedKeys o n)) e.1 = lookupJ o e.1 := by
    intro e he
    apply lookupJ_eraseKeys_not_mem
    intro hmem
    rcases mem_removedKeys.mp hmem with ⟨_, hnone⟩
    have hsome : (lookupJ n e.1).isSome = true := by
      rcases e with ⟨k, v⟩
      exact lookupJ_isSome_of_mem he
    rw [hnone] at hsome
    cases hsome
  rw [applyOps_upserts B
    (fun w hw ov d' segs' ptr' hd' hw' hp' hget' => IH w ov d' segs' ptr' hw hd' hw' hp' hget')
    n o _ segs ptr _
    (fun e he => by
      have h1 : sizeOf e < sizeOf n := List.sizeOf_lt_of_mem he
      have h2 : sizeOf e.2 < sizeOf e := by
        rcases e with ⟨a, b⟩
        simp <;> omega
      omega)
    hd1 hp hget1 (fun e he => wfF_forall.mp hwfN e he) (sortedK_nodup_keys hsn) hagree]
  rw [setObjPath_setObjPath]
  have hcov : ∀ e ∈ eraseKeys o (removedKeys o n), (lookupJ n e.1).isSome = true := by
    intro e he
    by_contra hns
    have hnone : lookupJ n e.1 = none := by
      cases hl : lookupJ n e.1 with
      | none => rfl
      | some v => exact absurd (by simp [hl]) hns
    rcases e with ⟨k, v⟩
    have hmem : k ∈ removedKeys o n :=
      mem_removedKeys.mpr ⟨⟨v, (eraseKeys_sublist _ _).mem he⟩, hnone⟩
    have hzero : lookupJ (eraseKeys o (removedKeys o n)) k = none :=
      lookupJ_eraseKeys_mem _ hso hmem
    have hsome : (lookupJ (eraseKeys o (removedKeys o n)) k).isSome = true :=
      lookupJ_isSome_of_mem he
    rw [hzero] at hsome
    cases hsome
  rw [upsertList_eq_of_covered (eraseKeys_sorted _ hso) hsn hcov]

/-- The bounded form of the diff/apply roundtrip, by induction on a size
bound for the new value. -/
theorem compute_diff_apply_bounded : ∀ (B : Nat) (new old d : JValue)
    (segs : List String) (ptr : String),
    sizeOf new ≤ B → wfJ d = true → wfJ new = true → PtrDenotes ptr segs →
    getObjPath d segs = some old →
    applyOps d (compute_diff ptr old new) = .ok (setObjPath d segs new) := by
  intro B
  induction B with
  | zero =>
    intro new old d segs ptr hsz _ _ _ _
    exfalso
    cases new <;> simp at hsz
  | succ B ihB =>
    intro new old d segs ptr hsz hd hnew hp hget
    cases old <;> cases new <;>
      first
      | (rw [compute_diff.eq_def]
         exact applyOps_ite_replace hd hp hget)
      | exact compute_diff_apply_obj B
          (fun w ov d' segs' ptr' hw hd' hw' hp' hget' =>
            ihB w ov d' segs' ptr' hw hd' hw' hp' hget')
          _ _ d segs ptr hsz hd hnew hp hget

/-- diff::compute_diff followed by diff::apply restores the new value at
the denoted path of any well-formed document. -/
theorem compute_diff_apply {new old d : JValue} {segs : List String} {ptr : String}
    (hd : wfJ d = true) (hnew : wfJ new = true) (hp : PtrDenotes ptr segs)
    (hget : getObjPath d segs = some old) :
    applyOps d (compute_diff ptr old new) = .ok (setObjPath d segs new) :=
  compute_diff_apply_bounded (sizeOf new) new old d segs ptr (Nat.le_refl _) hd hnew hp hget

/-- The root-pointer instance of the roundtrip. -/
theorem applyOps_compute_diff_root {old new : JValue} (hold : wfJ old = true)
    (hnew : wfJ new = true) :
    applyOps old (compute_diff "" old new) = .ok new := by
  have h := @compute_diff_apply new old old ([] : List String) "" hold hnew
    (Or.inl ⟨rfl, rfl⟩) (by simp [getObjPath])
  simpa [setObjPath] using h

/-- diff::apply on a patch whose op loop succeeds. -/
theorem apply_ok {s : Scroll} {p : Patch} {nd : JValue}
    (h : applyOps s.data p.ops = .ok nd) :
    apply s p = .ok { Scroll.new s.key nd with
        type_ := s.type_,
        metadata := { (Scroll.new s.key nd).metadata with version := p.seq } } := by
  simp only [apply]
  rw [h]
  rfl

/-- C2: for all scroll states s and s2 with well-formed (sorted-object)
JSON data, applying the patch computed by diff::create(key, some s, s2) to
s yields a scroll whose data equals s2.data, and arrays that differ are
replaced wholesale by a single replace op rather than element-diffed. -/
theorem c2_diff_apply_roundtrip (sha : String → String) (ser : JValue → String)
    (key : String) (s s2 : Scroll) (now : Int)
    (hs : wfJ s.data = true) (hs2 : wfJ s2.data = true) :
    (∃ t, apply s (diff_create sha ser key (some s) s2 now) = .ok t ∧ t.data = s2.data)
    ∧ (∀ (ptr : String) (a b : List JValue), JValue.arr a ≠ JValue.arr b →
        compute_diff ptr (.arr a) (.arr b) = [PatchOp.replace ptr (.arr b)]) := by
  constructor
  · have hround : applyOps s.data (diff_create sha ser key (some s) s2 now).ops
        = .ok s2.data := by
      show applyOps s.data (compute_diff "" s.data s2.data) = .ok s2.data
      exact applyOps_compute_diff_root hs hs2
    exact ⟨_, apply_ok hround, rfl⟩
  · intro ptr a b hne
    rw [compute_diff.eq_def]
    show (if JValue.arr a ≠ JValue.arr b then [PatchOp.replace ptr (.arr b)] else []) = _
    rw [if_pos hne]

/-! ## Lemmas: store write sequence numbering and patch chaining (C1) -/

theorem maxSeq_eq_foldl (dir : List (Nat × Patch)) :
    maxSeq dir = (dir.map Prod.fst).foldl max 0 := by
  show dir.foldl (fun m e => max m e.1) 0 = _
  rw [List.foldl_map]

theorem range'_concat_one : ∀ (n s : Nat),
    List.range' s (n + 1) = List.range' s n ++ [s + n] := by
  intro n
  induction n with
  | zero => intro s; simp [List.range']
  | succ n ih =>
    intro s
    rw [List.range'_succ, ih (s + 1), List.range'_succ, List.cons_append]
    have he : s + 1 + n = s + (n + 1) := by omega
    rw [he]

theorem range'_one_concat (n : Nat) :
    List.range' 1 (n + 1) = List.range' 1 n ++ [n + 1] := by
  rw [range'_concat_one n 1]
  have he : 1 + n = n + 1 := by omega
  rw [he]

theorem foldl_max_range' : ∀ n : Nat, (List.range' 1 n).foldl max 0 = n := by
  intro n
  induction n with
  | zero => rfl
  | succ n ih =>
    rw [range'_one_concat, List.foldl_append, ih]
    simp only [List.foldl_cons, List.foldl_nil]
    omega

theorem putPatch_fresh : ∀ (dir : List (Nat × Patch)) (k : Nat) (p : Patch),
    (∀ e ∈ dir, e.1 ≠ k) → putPatch dir k p = dir ++ [(k, p)] := by
  intro dir k p h
  induction dir with
  | nil => rfl
  | cons e rest ih =>
    rcases e with ⟨k', p'⟩
    have hne : ¬ k' = k := h (k', p') (by simp)
    simp only [putPatch, hne, if_false, List.cons_append, List.cons.injEq, true_and]
    exact ih (fun e he => h e (List.mem_cons_of_mem _ he))

theorem insertBySeq_le {p : Patch} : ∀ {l : List Patch}, (∀ q ∈ l, p.seq ≤ q.seq) →
    insertBySeq p l = p :: l := by
  intro l h
  cases l with
  | nil => rfl
  | cons q rest => simp [insertBySeq, h q (by simp)]

theorem sortBySeq_sorted_id : ∀ {l : List Patch},
    l.Pairwise (fun p q => p.seq ≤ q.seq) → sortBySeq l = l := by
  intro l h
  induction l with
  | nil => rfl
  | cons p rest ih =>
    have hp := List.pairwise_cons.mp h
    rw [show sortBySeq (p :: rest) = insertBySeq p (sortBySeq rest) from rfl,
      ih hp.2, insertBySeq_le hp.1]

theorem store_history_sorted_id {ps : List Patch}
    (h : ps.map Patch.seq = List.range' 1 ps.length) :
    store_history (ps.map (fun p => (p.seq, p))) = ps := by
  show sortBySeq ((ps.map (fun p => (p.seq, p))).map Prod.snd) = ps
  rw [List.map_map]
  rw [show (Prod.snd ∘ fun q : Patch => (q.seq, q)) = id from rfl, List.map_id]
  apply sortBySeq_sorted_id
  have h2 : (ps.map Patch.seq).Pairwise (· < ·) := by
    rw [h]
    simpa using List.pairwise_lt_range' 1 ps.length
  exact (List.pairwise_map.mp h2).imp (fun hlt => Nat.le_of_lt hlt)

/-- The write-run invariant: starting from a state whose directory holds
the patches ps numbered 1..|ps| and whose current scroll hashes to the
last patch's hash, a run of writes extends the numbering, the parent
chain and the genesis parent. -/
theorem store_write_run_inv (sha : String → String) (ser : JValue → String) :
    ∀ (writes : List (Int × Scroll)) (st : KeyState) (ps : List Patch),
    st.patchDir = ps.map (fun p => (p.seq, p)) →
    ps.map Patch.seq = List.range' 1 ps.length →
    (match st.current, ps.getLast? with
     | none, none => True
     | some cur, some lastp => lastp.hash = compute_hash sha ser cur
     | _, _ => False) →
    List.Chain' (fun p q => q.parent = some p.hash) ps →
    (∀ p ∈ ps.head?, p.parent = none) →
    ((store_write_run sha ser st writes).1.patchDir
        = (ps ++ (store_write_run sha ser st writes).2).map (fun p => (p.seq, p))
     ∧ (ps ++ (store_write_run sha ser st writes).2).map Patch.seq
        = List.range' 1 (ps ++ (store_write_run sha ser st writes).2).length
     ∧ List.Chain' (fun p q => q.parent = some p.hash)
        (ps ++ (store_write_run sha ser st writes).2)
     ∧ (∀ p ∈ (ps ++ (store_write_run sha ser st writes).2).head?, p.parent = none)) := by
  intro writes
  induction writes with
  | nil =>
    intro st ps h1 h2 _ h4 h5
    refine ⟨?_, ?_, ?_, ?_⟩
    · simp [store_write_run, h1]
    · simp [store_write_run, h2]
    · simpa [store_write_run] using h4
    · intro p hp
      simp only [store_write_run, List.append_nil] at hp
      exact h5 p hp
  | cons w rest ih =>
    intro st ps h1 h2 h3 h4 h5
    have hmax : maxSeq st.patchDir = ps.length := by
      rw [h1, maxSeq_eq_foldl, List.map_map]
      rw [show (Prod.fst ∘ fun q : Patch => (q.seq, q)) = Patch.seq from rfl]
      rw [h2, foldl_max_range']
    have hfresh : ∀ e ∈ st.patchDir, e.1 ≠ ps.length + 1 := by
      intro e he
      rw [h1] at he
      rcases List.mem_map.mp he with ⟨q, hq, hqe⟩
      have he1 : e.1 = q.seq := by rw [← hqe]
      rw [he1]
      have hqseq : q.seq ∈ ps.map Patch.seq := List.mem_map.mpr ⟨q, hq, rfl⟩
      rw [h2] at hqseq
      have := (List.mem_range'_1.mp hqseq).2
      omega
    have hseqP : (store_write_scroll sha ser st w.1 w.2).2.2.seq = ps.length + 1 := by
      show maxSeq st.patchDir + 1 = ps.length + 1
      rw [hmax]
    have hparentP : (store_write_scroll sha ser st w.1 w.2).2.2.parent
        = st.current.map (compute_hash sha ser) := rfl
    have hhashP : (store_write_scroll sha ser st w.1 w.2).2.2.hash
        = compute_hash sha ser (store_write_scroll sha ser st w.1 w.2).2.1 := rfl
    have hcur1 : (store_write_scroll sha ser st w.1 w.2).1.current
        = some (store_write_scroll sha ser st w.1 w.2).2.1 := rfl
    have hdir1 : (store_write_scroll sha ser st w.1 w.2).1.patchDir
        = st.patchDir ++ [(ps.length + 1, (store_write_scroll sha ser st w.1 w.2).2.2)] := by
      show putPatch st.patchDir (next_seq st.patchDir)
        (store_write_scroll sha ser st w.1 w.2).2.2 = _
      rw [show next_seq st.patchDir = ps.length + 1 from by
        show maxSeq st.patchDir + 1 = ps.length + 1
        rw [hmax]]
      exact putPatch_fresh _ _ _ hfresh
    rcases hsw : store_write_scroll sha ser st w.1 w.2 with ⟨st1, v4, p⟩
    rw [hsw] at hseqP hparentP hhashP hcur1 hdir1
    have hseqP' : p.seq = ps.length + 1 := hseqP
    have hparentP' : p.parent = st.current.map (compute_hash sha ser) := hparentP
    have hhashP' : p.hash = compute_hash sha ser v4 := hhashP
    have hcur1' : st1.current = some v4 := hcur1
    have hdir1' : st1.patchDir = st.patchDir ++ [(ps.length + 1, p)] := hdir1
    have i1 : st1.patchDir = (ps ++ [p]).map (fun q => (q.seq, q)) := by
      rw [hdir1', h1, List.map_append, List.map_cons, List.map_nil, hseqP']
    have i2 : (ps ++ [p]).map Patch.seq = List.range' 1 (ps ++ [p]).length := by
      rw [List.map_append, h2, List.map_cons, List.map_nil, hseqP', List.length_append]
      rw [show (ps.length + [p].length) = ps.length + 1 from by simp]
      exact (range'_one_concat ps.length).symm
    have i3 : (match st1.current, (ps ++ [p]).getLast? with
        | none, none => True
        | some cur, some lastp => lastp.hash = compute_hash sha ser cur
        | _, _ => False) := by
      rw [hcur1', List.getLast?_concat]
      exact hhashP'
    have i4 : List.Chain' (fun p q => q.parent = some p.hash) (ps ++ [p]) := by
      rw [List.chain'_append]
      refine ⟨h4, List.chain'_singleton _, ?_⟩
      intro x hx y hy
      simp only [List.head?_cons, Option.mem_def, Option.some.injEq] at hy
      subst hy
      cases hc : st.current with
      | none =>
        rw [hc, Option.mem_def.mp hx] at h3
        exact h3.elim
      | some cur =>
        rw [hc, Option.mem_def.mp hx] at h3
        rw [hparentP', hc, Option.map_some', h3]
    have i5 : ∀ q ∈ (ps ++ [p]).head?, q.parent = none := by
      cases ps with
      | nil =>
        intro q hq
        simp only [List.nil_append, List.head?_cons, Option.mem_def,
          Option.some.injEq] at hq
        subst hq
        cases hc : st.current with
        | none => rw [hparentP', hc, Option.map_none']
        | some cur =>
          rw [hc] at h3
          exact h3.elim
      | cons q0 qs =>
        intro q hq
        simp only [List.cons_append, List.head?_cons, Option.mem_def,
          Option.some.injEq] at hq
        subst hq
        exact h5 q0 (by simp)
    have hrest := ih st1 (ps ++ [p]) i1 i2 i3 i4 i5
    have hstep : store_write_run sha ser st (w :: rest)
        = ((store_write_run sha ser (store_write_scroll sha ser st w.1 w.2).1 rest).1,
           (store_write_scroll sha ser st w.1 w.2).2.2
             :: (store_write_run sha ser (store_write_scroll sha ser st w.1 w.2).1 rest).2) :=
      rfl
    rw [hsw] at hstep
    simp only [] at hstep
    rw [hstep]
    simp only []
    have hre : ps ++ p :: (store_write_run sha ser st1 rest).2
        = (ps ++ [p]) ++ (store_write_run sha ser st1 rest).2 := by simp
    rw [hre]
    exact hrest

/-- C1: starting from an empty key, a run of write_scroll calls produces
persisted patches numbered 1, 2, ..., n (each seq one greater than the
directory maximum at write time), each patch's parent is the previous
patch's hash (the content hash of the previously persisted scroll), the
first patch has parent none, and history returns the patches in that
order. -/
theorem c1_store_write_patch_chain (sha : String → String) (ser : JValue → String)
    (writes : List (Int × Scroll)) :
    ((store_write_run sha ser ⟨none, []⟩ writes).2.map Patch.seq
        = List.range' 1 (store_write_run sha ser ⟨none, []⟩ writes).2.length)
    ∧ List.Chain' (fun p q => q.parent = some p.hash)
        (store_write_run sha ser ⟨none, []⟩ writes).2
    ∧ (∀ p ∈ (store_write_run sha ser ⟨none, []⟩ writes).2.head?, p.parent = none)
    ∧ store_history (store_write_run sha ser ⟨none, []⟩ writes).1.patchDir
        = (store_write_run sha ser ⟨none, []⟩ writes).2
    ∧ (∀ (st : KeyState) (t : Int) (s : Scroll),
        (store_write_scroll sha ser st t s).2.2.seq = maxSeq st.patchDir + 1
        ∧ (store_write_scroll sha ser st t s).2.2.hash
            = compute_hash sha ser (store_write_scroll sha ser st t s).2.1
        ∧ (store_write_scroll sha ser st t s).2.2.parent
            = st.current.map (compute_hash sha ser)) := by
  have hinv := store_write_run_inv sha ser writes ⟨none, []⟩ [] rfl rfl trivial
    List.chain'_nil (by simp)
  simp only [List.nil_append] at hinv
  refine ⟨hinv.2.1, hinv.2.2.1, hinv.2.2.2, ?_, ?_⟩
  · rw [hinv.1]
    exact store_history_sorted_id hinv.2.1
  · intro st t s
    exact ⟨rfl, rfl, rfl⟩

/-! ## Lemmas: state_at reconstruction (C3) -/

theorem foldlM_apply_mapError : ∀ (l : List Patch) (init : Scroll),
    l.foldlM (fun cur p => (match apply cur p with
      | Except.ok next => Except.ok next
      | Except.error _ => Except.error (NsError.internal "failed to apply patch")
      : Except NsError Scroll)) init
    = (match l.foldlM apply init with
      | Except.ok s => (Except.ok s : Except NsError Scroll)
      | Except.error _ => Except.error (NsError.internal "failed to apply patch")) := by
  intro l
  induction l with
  | nil => intro init; rfl
  | cons p l ih =>
    intro init
    rw [List.foldlM_cons, List.foldlM_cons]
    cases h : apply init p with
    | error e =>
      show Except.error (NsError.internal "failed to apply patch") = _
      rfl
    | ok s =>
      show l.foldlM _ s = _
      exact ih s

/-- C3: with a non-empty history of n patches, state_at returns the result
of applying the first seq patches (in seq order) to a genesis scroll with
empty-object data, with application failures mapped to an internal error;
state_at fails with NotFound when the history is empty, and with an
invalid-sequence internal error when seq = 0 or seq exceeds n. -/
theorem c3_state_at_spec (dir : List (Nat × Patch)) (path : String) (seq : Nat) :
    (store_history dir ≠ [] → 1 ≤ seq → seq ≤ (store_history dir).length →
      state_at dir path seq
        = (match apply_first_patches (store_history dir) path seq with
          | .ok s => .ok s
          | .error _ => .error (NsError.internal "failed to apply patch")))
    ∧ (store_history dir = [] → state_at dir path seq = .error (.notFound path))
    ∧ (store_history dir ≠ [] → seq = 0 →
        state_at dir path seq = .error (.internal "invalid sequence number"))
    ∧ (store_history dir ≠ [] → (store_history dir).length < seq →
        state_at dir path seq = .error (.internal "invalid sequence number")) := by
  refine ⟨?_, ?_, ?_, ?_⟩
  · intro h1 h2 h3
    have hne : (store_history dir).isEmpty = false := by
      cases hl : store_history dir with
      | nil => exact absurd hl h1
      | cons a l => rfl
    have hcond : ¬ (seq = 0 ∨ (store_history dir).length < seq) := by omega
    show (if (store_history dir).isEmpty then Except.error (NsError.notFound path)
      else if seq = 0 ∨ (store_history dir).length < seq then
        Except.error (NsError.internal "invalid sequence number")
      else ((store_history dir).take seq).foldlM
        (fun cur p => match apply cur p with
          | .ok next => .ok next
          | .error _ => .error (NsError.internal "failed to apply patch"))
        (Scroll.new path (.obj []))) = _
    rw [hne]
    simp only [Bool.false_eq_true, if_false]
    rw [if_neg hcond]
    exact foldlM_apply_mapError _ _
  · intro h
    show (if (store_history dir).isEmpty then Except.error (NsError.notFound path)
      else _) = _
    rw [h]
    rfl
  · intro h1 h2
    have hne : (store_history dir).isEmpty = false := by
      cases hl : store_history dir with
      | nil => exact absurd hl h1
      | cons a l => rfl
    show (if (store_history dir).isEmpty then Except.error (NsError.notFound path)
      else if seq = 0 ∨ (store_history dir).length < seq then
        Except.error (NsError.internal "invalid sequence number")
      else _) = _
    rw [hne]
    simp only [Bool.false_eq_true, if_false]
    rw [if_pos (Or.inl h2)]
  · intro h1 h2
    have hne : (store_history dir).isEmpty = false := by
      cases hl : store_history dir with
      | nil => exact absurd hl h1
      | cons a l => rfl
    show (if (store_history dir).isEmpty then Except.error (NsError.notFound path)
      else if seq = 0 ∨ (store_history dir).length < seq then
        Except.error (NsError.internal "invalid sequence number")
      else _) = _
    rw [hne]
    simp only [Bool.false_eq_true, if_false]
    rw [if_pos (Or.inr h2)]

/-- Witness for C3 at a one-patch history. -/
theorem c3_witness :
    store_history [(1, patchWit)] ≠ [] ∧
    state_at [(1, patchWit)] "/k" 1
      = (match apply_first_patches (store_history [(1, patchWit)]) "/k" 1 with
        | .ok s => .ok s
        | .error _ => .error (NsError.internal "failed to apply patch")) :=
  ⟨by simp [store_history, sortBySeq, insertBySeq],
   (c3_state_at_spec [(1, patchWit)] "/k" 1).1
     (by simp [store_history, sortBySeq, insertBySeq]) (by decide)
     (by simp [store_history, sortBySeq, insertBySeq])⟩

/-! ## Lemmas: segment-boundary prefix test (C4) -/

theorem isPrefixOf_append_bool : ∀ (a b l : List Char),
    (a ++ b).isPrefixOf l = (a.isPrefixOf l && b.isPrefixOf (l.drop a.length)) := by
  intro a
  induction a with
  | nil => intro b l; simp
  | cons x a ih =>
    intro b l
    cases l with
    | nil => simp [List.isPrefixOf]
    | cons y l' =>
      simp only [List.cons_append, List.isPrefixOf, List.length_cons,
        List.drop_succ_cons, Bool.and_assoc, List.append_eq, ih]

theorem strStartsWith_append_slash (p m : String) :
    strStartsWith p (m ++ "/")
      = (strStartsWith p m && strStartsWith (String.mk (p.data.drop m.data.length)) "/") := by
  show (((m ++ "/") : String).data).isPrefixOf p.data = _
  rw [string_data_append]
  exact isPrefixOf_append_bool m.data ("/").data p.data

/-- C4 counterexample: the claim makes a root mount ("/") match every
path, but the code additionally requires the path to start with "/", so
the relative path "foo" is not matched by the root mount in any of the
three textually identical tests. -/
theorem c4_counterexample :
    ("/" : String) = "/"
    ∧ is_path_under_mount "foo" "/" = false
    ∧ memory_is_path_under_pfx "foo" "/" = false
    ∧ file_is_path_under_pfx "foo" "/" = false := by
  refine ⟨rfl, ?_, ?_, ?_⟩ <;> decide

/-- C4 amended: is_path_under_prefix(p, m) holds iff p starts with "/"
when m is the root mount "/", and otherwise iff p = m or p starts with m
followed by "/"; the memory and file backend tests coincide with the
kernel test, and "/foo/bar" is not under a mount at "/foobar". -/
theorem c4_under_pfx_amended (p m : String) :
    (is_path_under_mount p m = true ↔
      ((m = "/" ∧ strStartsWith p "/" = true)
       ∨ (m ≠ "/" ∧ p = m)
       ∨ (m ≠ "/" ∧ strStartsWith p (m ++ "/") = true)))
    ∧ memory_is_path_under_pfx p m = is_path_under_mount p m
    ∧ file_is_path_under_pfx p m = is_path_under_mount p m
    ∧ is_path_under_mount "/foo/bar" "/foobar" = false := by
  refine ⟨?_, rfl, rfl, by decide⟩
  by_cases hm : m = "/"
  · subst hm
    simp [is_path_under_mount]
  · by_cases hp : p = m
    · simp [is_path_under_mount, hm, hp]
    · by_cases hsw : strStartsWith p m = true
      · simp [is_path_under_mount, hm, hp, hsw, strStartsWith_append_slash]
      · simp [is_path_under_mount, hm, hp, hsw, strStartsWith_append_slash]

/-! ## Lemmas: path validation (C5) -/

theorem segment_ok_iff (is_alnum : Char → Bool) (path seg : String) :
    segment_ok is_alnum path seg = .ok () ↔
      ((seg.isEmpty = true ∧ path ≠ "/")
       ∨ (seg ≠ "." ∧ seg ≠ ".." ∧
          seg.data.all (fun c => is_alnum c || c = '_' || c = '.' || c = '-' || c = '*')
            = true)) := by
  show (if seg.isEmpty ∧ path ≠ "/" then Except.ok ()
    else if seg = "." ∨ seg = ".." then
      Except.error (NsError.invalidPath "path traversal not allowed")
    else if seg.data.all (fun c => is_alnum c || c = '_' || c = '.' || c = '-' || c = '*')
      then Except.ok ()
    else Except.error (NsError.invalidPath "invalid character in path")) = Except.ok () ↔ _
  by_cases h1 : seg.isEmpty = true ∧ path ≠ "/"
  · rw [if_pos h1]
    simp [h1]
  · rw [if_neg h1]
    by_cases h2 : seg = "." ∨ seg = ".."
    · rw [if_pos h2]
      constructor
      · intro h
        exact Except.noConfusion h
      · intro h
        rcases h with h | h
        · exact absurd h h1
        · rcases h2 with h2 | h2
          · exact absurd h2 h.1
          · exact absurd h2 h.2.1
    · rw [if_neg h2]
      push_neg at h2
      by_cases h3 : seg.data.all
          (fun c => is_alnum c || c = '_' || c = '.' || c = '-' || c = '*') = true
      · rw [if_pos h3]
        simp [h2.1, h2.2, h3]
      · rw [if_neg h3]
        constructor
        · intro h
          exact Except.noConfusion h
        · intro h
          rcases h with h | h
          · exact absurd h h1
          · exact absurd h.2.2 h3

theorem validate_segments_ok_iff (is_alnum : Char → Bool) (path : String) :
    ∀ segs : List String,
    validate_segments is_alnum path segs = .ok () ↔
      ∀ seg ∈ segs,
        ((seg.isEmpty = true ∧ path ≠ "/")
         ∨ (seg ≠ "." ∧ seg ≠ ".." ∧
            seg.data.all (fun c => is_alnum c || c = '_' || c = '.' || c = '-' || c = '*')
              = true)) := by
  intro segs
  induction segs with
  | nil => simp [validate_segments]
  | cons s rest ih =>
    constructor
    · intro h seg hseg
      cases hok : segment_ok is_alnum path s with
      | error e =>
        exfalso
        have hbad : validate_segments is_alnum path (s :: rest) = .error e := by
          show (segment_ok is_alnum path s >>= fun _ =>
            validate_segments is_alnum path rest) = _
          rw [hok]
          rfl
        rw [hbad] at h
        exact Except.noConfusion h
      | ok u =>
        rcases List.mem_cons.mp hseg with hseg1 | hseg1
        · subst hseg1
          cases u
          exact (segment_ok_iff is_alnum path seg).mp hok
        · have hrest : validate_segments is_alnum path rest = .ok () := by
            have hstep : validate_segments is_alnum path (s :: rest)
                = validate_segments is_alnum path rest := by
              show (segment_ok is_alnum path s >>= fun _ =>
                validate_segments is_alnum path rest) = _
              rw [hok]
              rfl
            rw [← hstep]
            exact h
          exact (ih.mp hrest) seg hseg1
    · intro h
      have hs : segment_ok is_alnum path s = .ok () :=
        (segment_ok_iff is_alnum path s).mpr (h s (by simp))
      show (segment_ok is_alnum path s >>= fun _ =>
        validate_segments is_alnum path rest) = _
      rw [hs]
      show validate_segments is_alnum path rest = _
      exact ih.mpr (fun seg hseg => h seg (List.mem_cons_of_mem _ hseg))

/-- C5 counterexample: the claim restricts segment characters to the
ASCII class [A-Za-z0-9_.\x2d*], but the code tests char::is_alphanumeric,
which accepts Unicode letters: the path "/é" validates even though 'é'
is outside the claimed class. latin1_is_alphanumeric reproduces
char::is_alphanumeric on all code points below U+0100. -/
theorem c5_counterexample :
    validate_path latin1_is_alphanumeric "/é" = .ok ()
    ∧ (('é'.isAlphanum || 'é' = '_' || 'é' = '.' || 'é' = '-' || 'é' = '*') = false)
    ∧ latin1_is_alphanumeric 'é' = true :=
  ⟨rfl, by decide, by decide⟩

/-- C5 amended: validate_path(p) succeeds iff p is non-empty, starts with
"/", and every segment after the first slash either is empty with p not
the root path (a tolerated doubled or trailing slash), or is neither "."
nor ".." and consists of characters accepted by the character test
(char::is_alphanumeric — Unicode alphanumerics, not only ASCII — or one
of underscore, dot, hyphen, star). -/
theorem c5_validate_path_amended (is_alnum : Char → Bool) (p : String) :
    validate_path is_alnum p = .ok () ↔
      (p.isEmpty = false ∧ strStartsWith p "/" = true ∧
        ∀ seg ∈ (strSplitOnChar '/' p).drop 1,
          ((seg.isEmpty = true ∧ p ≠ "/")
           ∨ (seg ≠ "." ∧ seg ≠ ".." ∧
              seg.data.all
                (fun c => is_alnum c || c = '_' || c = '.' || c = '-' || c = '*')
                = true))) := by
  show (if p.isEmpty then Except.error (NsError.invalidPath "path cannot be empty")
    else if ¬ strStartsWith p "/" then
      Except.error (NsError.invalidPath "path must start with slash")
    else validate_segments is_alnum p ((strSplitOnChar '/' p).drop 1)) = Except.ok () ↔ _
  by_cases h1 : p.isEmpty = true
  · rw [if_pos h1]
    constructor
    · intro h
      exact Except.noConfusion h
    · rintro ⟨hf, _, _⟩
      rw [h1] at hf
      exact Bool.noConfusion hf
  · have h1f : p.isEmpty = false := by
      cases h : p.isEmpty with
      | false => rfl
      | true => exact absurd h h1
    rw [if_neg h1]
    by_cases h2 : strStartsWith p "/" = true
    · rw [if_neg (by simp [h2])]
      rw [validate_segments_ok_iff]
      simp [h1f, h2]
    · rw [if_pos (by simp [h2])]
      constructor
      · intro h
        exact Except.noConfusion h
      · rintro ⟨_, hsw, _⟩
        exact absurd hsw h2

/-! ## Lemmas: backend write timestamps (C6) -/

theorem except_bind_ok {E α β : Type} {e : Except E α} {g : α → Except E β} {y : β}
    (h : (e >>= g) = .ok y) : ∃ a, e = .ok a ∧ g a = .ok y := by
  cases e with
  | error err =>
    exfalso
    have hred : (Except.error err >>= g) = (Except.error err : Except E β) := rfl
    rw [hred] at h
    exact Except.noConfusion h
  | ok a =>
    refine ⟨a, rfl, ?_⟩
    have hred : (Except.ok a >>= g) = g a := rfl
    rw [hred] at h
    exact h

/-- C6 counterexample: two writes to the same path at times 1 and 2; the
second write resets created_at to the new time instead of preserving the
stored value. -/
theorem c6_counterexample :
    ∃ (st1 : MemState) (s1 : Scroll) (st2 : MemState) (s2 : Scroll),
      memory_write latin1_is_alphanumeric (fun _ => "h") (fun _ => "")
        ⟨[], false⟩ 1 "/k" (JValue.num 1) = .ok (st1, s1)
      ∧ memory_write latin1_is_alphanumeric (fun _ => "h") (fun _ => "")
          st1 2 "/k" (JValue.num 2) = .ok (st2, s2)
      ∧ s1.metadata.created_at = some "1"
      ∧ s2.metadata.created_at = some "2"
      ∧ s2.metadata.created_at ≠ s1.metadata.created_at := by
  refine ⟨_, _, _, _, rfl, rfl, rfl, rfl, by decide⟩

/-- C6 amended: on every successful backend write(path, data), both
created_at and updated_at are overwritten with the current time (the
write constructs a fresh scroll and never consults the stored one); only
write_scroll preserves a created_at, namely the one carried by its scroll
argument, stamping the current time only when that field is empty. -/
theorem c6_created_at_amended (is_alnum : Char → Bool) (sha : String → String)
    (ser : JValue → String) (t : Int) :
    (∀ (st : MemState) (path : String) (data : JValue) (st' : MemState) (s' : Scroll),
      memory_write is_alnum sha ser st t path data = .ok (st', s') →
      s'.metadata.created_at = some (current_iso_time t)
      ∧ s'.metadata.updated_at = some (current_iso_time t))
    ∧ (∀ (st : FileState) (path : String) (data : JValue) (st' : FileState) (s' : Scroll),
      file_write is_alnum sha ser st t path data = .ok (st', s') →
      s'.metadata.created_at = some (current_iso_time t)
      ∧ s'.metadata.updated_at = some (current_iso_time t))
    ∧ (∀ (st : MemState) (scroll : Scroll) (st' : MemState) (s' : Scroll),
      memory_write_scroll is_alnum sha ser st t scroll = .ok (st', s') →
      s'.metadata.created_at = (if scroll.metadata.created_at.isNone
          then some (current_iso_time t) else scroll.metadata.created_at)
      ∧ s'.metadata.updated_at = some (current_iso_time t))
    ∧ (∀ (st : FileState) (scroll : Scroll) (st' : FileState) (s' : Scroll),
      file_write_scroll is_alnum sha ser st t scroll = .ok (st', s') →
      s'.metadata.created_at = (if scroll.metadata.created_at.isNone
          then some (current_iso_time t) else scroll.metadata.created_at)
      ∧ s'.metadata.updated_at = some (current_iso_time t)) := by
  refine ⟨?_, ?_, ?_, ?_⟩
  · intro st path data st' s' h
    rcases st with ⟨store, closed⟩
    cases closed with
    | true => exact Except.noConfusion h
    | false =>
      rcases except_bind_ok h with ⟨a, _, hg⟩
      have hpair := Except.ok.inj hg
      have h2 : _ = s' := congrArg Prod.snd hpair
      rw [← h2]
      exact ⟨rfl, rfl⟩
  · intro st path data st' s' h
    rcases st with ⟨files, versions, closed⟩
    cases closed with
    | true => exact Except.noConfusion h
    | false =>
      rcases except_bind_ok h with ⟨a, _, hg⟩
      have hpair := Except.ok.inj hg
      have h2 : _ = s' := congrArg Prod.snd hpair
      rw [← h2]
      exact ⟨rfl, rfl⟩
  · intro st scroll st' s' h
    rcases st with ⟨store, closed⟩
    cases closed with
    | true => exact Except.noConfusion h
    | false =>
      rcases except_bind_ok h with ⟨a, _, hg⟩
      have hpair := Except.ok.inj hg
      have h2 : _ = s' := congrArg Prod.snd hpair
      rw [← h2]
      exact ⟨rfl, rfl⟩
  · intro st scroll st' s' h
    rcases st with ⟨files, versions, closed⟩
    cases closed with
    | true => exact Except.noConfusion h
    | false =>
      rcases except_bind_ok h with ⟨a, _, hg⟩
      have hpair := Except.ok.inj hg
      have h2 : _ = s' := congrArg Prod.snd hpair
      rw [← h2]
      exact ⟨rfl, rfl⟩

/-- Witness for C6 at a concrete first write. -/
theorem c6_witness :
    ∃ (st' : MemState) (s' : Scroll),
      memory_write latin1_is_alphanumeric (fun _ => "h") (fun _ => "")
        ⟨[], false⟩ 1 "/k" (JValue.num 1) = .ok (st', s')
      ∧ (s'.metadata.created_at = some (current_iso_time 1)
         ∧ s'.metadata.updated_at = some (current_iso_time 1)) :=
  ⟨_, _, rfl,
   (c6_created_at_amended latin1_is_alphanumeric (fun _ => "h") (fun _ => "") 1).1
     ⟨[], false⟩ "/k" (JValue.num 1) _ _ rfl⟩

/-! ## Lemmas: watch and watch_decrypted (C7) -/

/-- C7 counterexample: the Namespace-trait watch of an encrypted Store
delegates to the inner file backend and delivers the stored scroll still
sealed, even though it is decryptable; only watch_decrypted delivers the
unsealed scroll. -/
theorem c7_counterexample :
    store_watch_raw [watchStoredWit] = [watchStoredWit]
    ∧ (store_watch_raw [watchStoredWit]).map StoredScroll.data
        = [.sealedData watchSealedWit]
    ∧ decrypt_scroll watchStoredWit watchKeyWit = .ok watchScrollWit
    ∧ watch_decrypted_forward watchKeyWit [watchStoredWit] = [watchScrollWit] :=
  ⟨rfl, rfl, rfl, rfl⟩

/-- C7 amended: the trait watch of an encrypted Store passes the raw
sealed scrolls through unchanged; the separate watch_decrypted method
forwards, on a new channel, exactly the scrolls that decrypt, and a
scroll that fails decryption is dropped while the forward loop continues
with the rest of the stream. -/
theorem c7_watch_amended :
    (∀ incoming : List StoredScroll, store_watch_raw incoming = incoming)
    ∧ (∀ (key : Key) (incoming : List StoredScroll),
        watch_decrypted_forward key incoming
          = incoming.filterMap (fun s => (decrypt_scroll s key).toOption))
    ∧ (∀ (key : Key) (s : StoredScroll) (rest : List StoredScroll) (e : NsError),
        decrypt_scroll s key = .error e →
        watch_decrypted_forward key (s :: rest) = watch_decrypted_forward key rest) := by
  refine ⟨fun _ => rfl, ?_, ?_⟩
  · intro key incoming
    induction incoming with
    | nil => rfl
    | cons s rest ih =>
      show (match decrypt_scroll s key with
        | .ok sc => sc :: watch_decrypted_forward key rest
        | .error _ => watch_decrypted_forward key rest) = _
      cases h : decrypt_scroll s key with
      | ok sc => simp [List.filterMap_cons, h, Except.toOption, ih]
      | error e => simp [List.filterMap_cons, h, Except.toOption, ih]
  · intro key s rest e h
    show (match decrypt_scroll s key with
      | .ok sc => sc :: watch_decrypted_forward key rest
      | .error _ => watch_decrypted_forward key rest) = _
    rw [h]

/-- Witness for C7: a scroll whose data is not a SealedValue fails
decryption and is dropped, leaving the forwarded stream unchanged. -/
theorem c7_witness :
    decrypt_scroll
      { key := "/k", type_ := "t", metadata := {}, data := .plainData (JValue.num 0) }
      watchKeyWit = .error (.internal "failed to parse sealed data")
    ∧ watch_decrypted_forward watchKeyWit
        [{ key := "/k", type_ := "t", metadata := {}, data := .plainData (JValue.num 0) }]
      = watch_decrypted_forward watchKeyWit [] :=
  ⟨rfl, (c7_watch_amended).2.2 watchKeyWit _ [] _ rfl⟩

/-! ## Lemmas: sealed scroll roundtrip (C8) -/

/-- C8 counterexample: sealing with the empty password stores
has_password = false, and unsealing then ignores whatever password is
supplied: unsealing with "x" (not the sealing password "") succeeds,
contradicting "unsealing with any password other than the sealing
password fails". -/
theorem c8_counterexample :
    ∃ ss : SealedScroll,
      scroll_seal (fun _ => "\x7b\x7d") (Scroll.new "/k" (JValue.num 1)) (some "")
        (List.replicate 16 1) (List.replicate 12 0) 0 = .ok ss
      ∧ ss.has_password = false
      ∧ (some "x" : Option String) ≠ some ""
      ∧ sealed_unseal ss (some "x") = .ok (Scroll.new "/k" (JValue.num 1)) :=
  ⟨_, rfl, rfl, by decide, rfl⟩

/-- C8 amended: for a scroll within the size bound and a 12-byte nonce,
unseal(seal(s, pw), pw) recovers s for every pw; when the sealing
password is non-empty, unsealing with a different password fails and
unsealing with no password fails (has_password is true); but when the
sealing password is empty or absent, has_password is false and unsealing
succeeds with ANY supplied password, which is ignored. -/
theorem c8_seal_unseal_amended (ser : Scroll → String) (s : Scroll)
    (saltR nonceR : List Nat) (now : Int)
    (hsize : ¬ MAX_SEALED_SIZE < (ser s).utf8ByteSize)
    (hnonce : nonceR.length = 12) :
    (∀ (pw : Option String) (ss : SealedScroll),
       scroll_seal ser s pw saltR nonceR now = .ok ss →
       sealed_unseal ss pw = .ok s)
    ∧ (∀ (p q : String) (ss : SealedScroll), p.isEmpty = false → q ≠ p →
       scroll_seal ser s (some p) saltR nonceR now = .ok ss →
       sealed_unseal ss (some q)
         = .error (.decryptionFailed "aead open failed"))
    ∧ (∀ (p : String) (ss : SealedScroll), p.isEmpty = false →
       scroll_seal ser s (some p) saltR nonceR now = .ok ss →
       ss.has_password = true
       ∧ sealed_unseal ss none
           = .error (.decryptionFailed "password required but not provided"))
    ∧ (∀ (pw : Option String) (ss : SealedScroll),
       (pw = none ∨ pw = some "") →
       scroll_seal ser s pw saltR nonceR now = .ok ss →
       ss.has_password = false
       ∧ ∀ any : Option String, sealed_unseal ss any = .ok s) := by
  have hseal : ∀ pw : Option String, scroll_seal ser s pw saltR nonceR now
      = .ok { version := 1,
              ciphertext := ((match pw with
                | some pwd => if ¬ pwd.isEmpty then (derive_key pwd saltR, some saltR)
                              else (default_key, none)
                | none => ((default_key : Key), (none : Option (List Nat)))).1,
                PlainData.ofScroll s),
              nonce := nonceR,
              salt := (match pw with
                | some pwd => if ¬ pwd.isEmpty then ((derive_key pwd saltR : Key), some saltR)
                              else (default_key, none)
                | none => ((default_key : Key), (none : Option (List Nat)))).2,
              has_password := pw.isSome && ¬(pw.getD "").isEmpty,
              sealed_at := now,
              scroll_type := some s.type_ } := by
    intro pw
    show (if MAX_SEALED_SIZE < (ser s).utf8ByteSize then
        Except.error (CryptoError.invalidData "scroll exceeds maximum sealed size")
      else _) = _
    rw [if_neg hsize]
    rfl
  have huns : ∀ (k0 key : Key), crypto_unseal key
      { version := 1, nonce := nonceR, ciphertext := (k0, PlainData.ofScroll s) }
      = (if k0 = key then .ok (PlainData.ofScroll s)
         else .error (.decryptionFailed "aead open failed")) := by
    intro k0 key
    show (if (1 : Nat) ≠ 1 then
        Except.error (CryptoError.invalidData "unsupported sealed version")
      else if nonceR.length ≠ 12 then
        Except.error (CryptoError.invalidData "nonce must be 12 bytes")
      else if k0 = key then Except.ok (PlainData.ofScroll s)
      else Except.error (CryptoError.decryptionFailed "aead open failed")) = _
    rw [if_neg (by simp), if_neg (by simp [hnonce])]
  have hunsEq : ∀ k0 : Key, crypto_unseal k0
      { version := 1, nonce := nonceR, ciphertext := (k0, PlainData.ofScroll s) }
      = .ok (PlainData.ofScroll s) := by
    intro k0
    rw [huns k0 k0, if_pos rfl]
  have hunsNe : ∀ k0 key : Key, k0 ≠ key → crypto_unseal key
      { version := 1, nonce := nonceR, ciphertext := (k0, PlainData.ofScroll s) }
      = .error (.decryptionFailed "aead open failed") := by
    intro k0 key h
    rw [huns k0 key, if_neg h]
  have hsealNoPwd : ∀ pw : Option String, (pw = none ∨ pw = some "") →
      scroll_seal ser s pw saltR nonceR now
      = .ok { version := 1, ciphertext := (default_key, PlainData.ofScroll s),
              nonce := nonceR, salt := none, has_password := false,
              sealed_at := now, scroll_type := some s.type_ } := by
    intro pw hpw
    rcases hpw with rfl | rfl
    · rw [hseal none]
      rfl
    · rw [hseal (some "")]
      simp [show ("" : String).isEmpty = true from rfl]
  have hsealPwd : ∀ p : String, p.isEmpty = false →
      scroll_seal ser s (some p) saltR nonceR now
      = .ok { version := 1, ciphertext := (derive_key p saltR, PlainData.ofScroll s),
              nonce := nonceR, salt := some saltR, has_password := true,
              sealed_at := now, scroll_type := some s.type_ } := by
    intro p hp
    rw [hseal (some p)]
    simp [hp]
  have hopenNoPwd : ∀ any : Option String, sealed_unseal
      { version := 1, ciphertext := (default_key, PlainData.ofScroll s),
        nonce := nonceR, salt := none, has_password := false,
        sealed_at := now, scroll_type := some s.type_ } any = .ok s := by
    intro any
    show (crypto_unseal default_key
        { version := 1, nonce := nonceR, ciphertext := (default_key, PlainData.ofScroll s) }
      >>= fun pt => (match pt with
        | PlainData.ofScroll sc => Except.ok sc
        | PlainData.ofString _ => Except.error (CryptoError.invalidData "invalid scroll json")))
      = Except.ok s
    rw [hunsEq default_key]
    rfl
  refine ⟨?_, ?_, ?_, ?_⟩
  · intro pw ss hss
    cases pw with
    | none =>
      have he := Except.ok.inj ((hsealNoPwd none (Or.inl rfl)).symm.trans hss)
      subst he
      exact hopenNoPwd none
    | some pwd =>
      by_cases hpe : pwd.isEmpty = true
      · have hpw' : (some pwd : Option String) = none ∨ (some pwd : Option String) = some "" := by
          right
          have : pwd = "" := by
            cases pwd with
            | mk data =>
              cases data with
              | nil => rfl
              | cons c cs =>
                exfalso
                have hf : (String.mk (c :: cs)).isEmpty = false := by
                  simp [String.isEmpty, String.endPos, String.utf8ByteSize, String.Pos.ext_iff]
                  have := Char.utf8Size_pos c
                  omega
                rw [hf] at hpe
                exact Bool.noConfusion hpe
          rw [this]
        have he := Except.ok.inj ((hsealNoPwd (some pwd) hpw').symm.trans hss)
        subst he
        exact hopenNoPwd (some pwd)
      · have hpf : pwd.isEmpty = false := by
          cases h : pwd.isEmpty with
          | false => rfl
          | true => exact absurd h hpe
        have he := Except.ok.inj ((hsealPwd pwd hpf).symm.trans hss)
        subst he
        show (crypto_unseal (derive_key pwd saltR)
            { version := 1, nonce := nonceR,
              ciphertext := (derive_key pwd saltR, PlainData.ofScroll s) }
          >>= fun pt => (match pt with
            | PlainData.ofScroll sc => Except.ok sc
            | PlainData.ofString _ =>
              Except.error (CryptoError.invalidData "invalid scroll json")))
          = Except.ok s
        rw [hunsEq (derive_key pwd saltR)]
        rfl
  · intro p q ss hp hqp hss
    have he := Except.ok.inj ((hsealPwd p hp).symm.trans hss)
    subst he
    have hk : derive_key p saltR ≠ derive_key q saltR := by
      simp [derive_key]
      intro h
      exact absurd h.symm hqp
    show (crypto_unseal (derive_key q saltR)
        { version := 1, nonce := nonceR,
          ciphertext := (derive_key p saltR, PlainData.ofScroll s) }
      >>= fun pt => (match pt with
        | PlainData.ofScroll sc => Except.ok sc
        | PlainData.ofString _ =>
          Except.error (CryptoError.invalidData "invalid scroll json")))
      = Except.error (CryptoError.decryptionFailed "aead open failed")
    rw [hunsNe (derive_key p saltR) (derive_key q saltR) hk]
    rfl
  · intro p ss hp hss
    have he := Except.ok.inj ((hsealPwd p hp).symm.trans hss)
    subst he
    exact ⟨rfl, rfl⟩
  · intro pw ss hpw hss
    have he := Except.ok.inj ((hsealNoPwd pw hpw).symm.trans hss)
    subst he
    exact ⟨rfl, hopenNoPwd⟩

/-- Witness for C8: sealing with the non-empty password "p" and unsealing
with the different password "q" fails. -/
theorem c8_witness :
    (¬ MAX_SEALED_SIZE < (("\x7b\x7d" : String)).utf8ByteSize)
    ∧ (List.replicate 12 0 : List Nat).length = 12
    ∧ ∃ ss : SealedScroll,
        scroll_seal (fun _ => "\x7b\x7d") (Scroll.new "/k" (JValue.num 1)) (some "p")
          (List.replicate 16 1) (List.replicate 12 0) 0 = .ok ss
        ∧ sealed_unseal ss (some "q")
            = .error (.decryptionFailed "aead open failed") :=
  ⟨by decide, by decide,
   ⟨_, rfl,
    (c8_seal_unseal_amended (fun _ => "\x7b\x7d") (Scroll.new "/k" (JValue.num 1))
      (List.replicate 16 1) (List.replicate 12 0) 0 (by decide) (by decide)).2.1
      "p" "q" _ (by decide) (by decide) rfl⟩⟩

/-! ## Lemmas: vault unlock rate limiting (C9) -/

theorem check_locked_quiet {rl : RateLimiter} {now : Nat}
    (hreset : rl.last_attempt = none
      ∨ ∃ la, rl.last_attempt = some la ∧ ¬ RL_RESET_AFTER_SECS < now - la)
    (hlock : rl.locked_until = none) :
    check_locked rl now = (rl, none) := by
  rcases rl with ⟨n, laF, luF⟩
  have hlu : luF = none := hlock
  subst hlu
  cases laF with
  | none => rfl
  | some la =>
    rcases hreset with h | ⟨la', hla, hres⟩
    · exact Option.noConfusion h
    · have hla' : la = la' := Option.some.inj hla
      subst hla'
      simp only [check_locked]
      rw [if_neg hres]

theorem check_locked_reset {rl : RateLimiter} {now la : Nat}
    (hla : rl.last_attempt = some la)
    (hres : RL_RESET_AFTER_SECS < now - la) :
    check_locked rl now = ({ rl with failed_attempts := 0, locked_until := none }, none) := by
  rcases rl with ⟨n, laF, luF⟩
  have hla' : laF = some la := hla
  subst hla'
  simp only [check_locked]
  rw [if_pos hres]

theorem check_locked_pending {rl : RateLimiter} {now la T : Nat}
    (hla : rl.last_attempt = some la)
    (hres : ¬ RL_RESET_AFTER_SECS < now - la)
    (hlu : rl.locked_until = some T)
    (hT : now < T) :
    check_locked rl now = (rl, some "too many failed attempts") := by
  rcases rl with ⟨n, laF, luF⟩
  have hla' : laF = some la := hla
  subst hla'
  have hlu' : luF = some T := hlu
  subst hlu'
  simp only [check_locked]
  rw [if_neg hres]
  simp only []
  rw [if_pos hT]

theorem check_locked_expired {rl : RateLimiter} {now la T : Nat}
    (hla : rl.last_attempt = some la)
    (hres : ¬ RL_RESET_AFTER_SECS < now - la)
    (hlu : rl.locked_until = some T)
    (hT : ¬ now < T) :
    check_locked rl now = ({ rl with locked_until := none }, none) := by
  rcases rl with ⟨n, laF, luF⟩
  have hla' : laF = some la := hla
  subst hla'
  have hlu' : luF = some T := hlu
  subst hlu'
  simp only [check_locked]
  rw [if_neg hres]
  simp only []
  rw [if_neg hT]

theorem vault_unlock_limited {st : VaultState} {t : Nat} {rlc : RateLimiter} {msg : String}
    (hc : check_locked st.limiter t = (rlc, some msg)) (p : String) :
    vault_unlock st t p = ({ st with limiter := rlc }, .error (.rateLimited msg)) := by
  rcases st with ⟨hashF, saltF, rlF⟩
  have hc' : check_locked rlF t = (rlc, some msg) := hc
  simp [vault_unlock, hc']

theorem vault_unlock_fail {pc pw : String} {salt0 : List Nat} {st : VaultState} {t : Nat}
    {rlc : RateLimiter}
    (hc : check_locked st.limiter t = (rlc, none))
    (hhash : st.passphrase_hash = some (.phc pc salt0))
    (hwrong : pw ≠ pc) :
    vault_unlock st t pw
      = ({ st with limiter := record_failure rlc t }, .error .invalidPassphrase) := by
  rcases st with ⟨hashF, saltF, rlF⟩
  have hc' : check_locked rlF t = (rlc, none) := hc
  have h1 : hashF = some (.phc pc salt0) := hhash
  subst h1
  have hv : verify_passphrase pw (.phc pc salt0) = false := by
    simp [verify_passphrase]
    exact fun h => hwrong h.symm
  simp [vault_unlock, hc', hv]

theorem vault_unlock_success {pc : String} {salt0 vsalt : List Nat} {st : VaultState}
    {t : Nat} {rlc : RateLimiter}
    (hc : check_locked st.limiter t = (rlc, none))
    (hhash : st.passphrase_hash = some (.phc pc salt0))
    (hsalt : st.salt = some vsalt) :
    vault_unlock st t pc
      = ({ st with limiter := ⟨0, none, none⟩ }, .ok (derive_key pc vsalt)) := by
  rcases st with ⟨hashF, saltF, rlF⟩
  have hc' : check_locked rlF t = (rlc, none) := hc
  have h1 : hashF = some (.phc pc salt0) := hhash
  subst h1
  have h2 : saltF = some vsalt := hsalt
  subst h2
  have hv : verify_passphrase pc (.phc pc salt0) = true := by
    simp [verify_passphrase]
  simp [vault_unlock, hc', hv, record_success]

theorem record_failure_cap (rl : RateLimiter) (now : Nat)
    (h : RL_MAX_ATTEMPTS ≤ rl.failed_attempts + 1) :
    ∃ T, (record_failure rl now).locked_until = some T
      ∧ T ≤ now + RL_MAX_LOCKOUT_SECS := by
  rcases rl with ⟨n, laF, luF⟩
  have hm : RL_MAX_ATTEMPTS ≤ n + 1 := h
  have hred : record_failure ⟨n, laF, luF⟩ now
      = { failed_attempts := n + 1, last_attempt := some now,
          locked_until := some (now + min
            (RL_BASE_LOCKOUT_SECS * 2 ^ ((n + 1 - RL_MAX_ATTEMPTS) / RL_MAX_ATTEMPTS))
            RL_MAX_LOCKOUT_SECS) } := by
    simp only [record_failure]
    rw [if_pos hm]
  refine ⟨_, by rw [hred], ?_⟩
  have := Nat.min_le_right
    (RL_BASE_LOCKOUT_SECS * 2 ^ ((n + 1 - RL_MAX_ATTEMPTS) / RL_MAX_ATTEMPTS))
    RL_MAX_LOCKOUT_SECS
  omega

/-- C9: three consecutive failed unlocks (within the inactivity window)
install a 60-second lockout; while locked, every unlock — with any
passphrase and any stored hash, hence before any verification or key
derivation — fails with RateLimited and leaves the state unchanged; a
freshly installed lockout never exceeds 1800 seconds; after expiry the
correct passphrase succeeds and fully resets the limiter; and after more
than an hour of inactivity the counter resets. -/
theorem c9_rate_limit_lockout (pc pw : String) (hwrong : pw ≠ pc)
    (salt0 vsalt : List Nat) (t1 t2 t3 : Nat) (h12 : t1 ≤ t2) (h23 : t2 ≤ t3)
    (hr2 : ¬ RL_RESET_AFTER_SECS < t2 - t1) (hr3 : ¬ RL_RESET_AFTER_SECS < t3 - t2) :
    ((vault_unlock_seq ⟨some (.phc pc salt0), some vsalt, rl_new⟩
        [(t1, pw), (t2, pw), (t3, pw)]).2
      = [.error .invalidPassphrase, .error .invalidPassphrase, .error .invalidPassphrase])
    ∧ ((vault_unlock_seq ⟨some (.phc pc salt0), some vsalt, rl_new⟩
        [(t1, pw), (t2, pw), (t3, pw)]).1.limiter
      = ⟨3, some t3, some (t3 + RL_BASE_LOCKOUT_SECS)⟩)
    ∧ (∀ (st : VaultState) (la T t : Nat) (p : String),
        st.limiter = ⟨3, some la, some T⟩ → ¬ RL_RESET_AFTER_SECS < t - la → t < T →
        vault_unlock st t p = (st, .error (.rateLimited "too many failed attempts")))
    ∧ (∀ (rl : RateLimiter) (now : Nat), RL_MAX_ATTEMPTS ≤ rl.failed_attempts + 1 →
        ∃ T, (record_failure rl now).locked_until = some T
          ∧ T ≤ now + RL_MAX_LOCKOUT_SECS)
    ∧ (∀ (st : VaultState) (la T t : Nat),
        st.passphrase_hash = some (.phc pc salt0) → st.salt = some vsalt →
        st.limiter = ⟨3, some la, some T⟩ → ¬ RL_RESET_AFTER_SECS < t - la → T ≤ t →
        vault_unlock st t pc
          = ({ st with limiter := ⟨0, none, none⟩ }, .ok (derive_key pc vsalt)))
    ∧ (∀ (st : VaultState) (la T t : Nat),
        st.passphrase_hash = some (.phc pc salt0) →
        st.limiter = ⟨3, some la, some T⟩ → RL_RESET_AFTER_SECS < t - la →
        vault_unlock st t pw
          = ({ st with limiter := ⟨1, some t, none⟩ }, .error .invalidPassphrase)) := by
  have s1 : vault_unlock ⟨some (.phc pc salt0), some vsalt, rl_new⟩ t1 pw
      = (⟨some (.phc pc salt0), some vsalt, ⟨1, some t1, none⟩⟩,
         .error .invalidPassphrase) :=
    vault_unlock_fail (check_locked_quiet (Or.inl rfl) rfl) rfl hwrong
  have s2 : vault_unlock ⟨some (.phc pc salt0), some vsalt, ⟨1, some t1, none⟩⟩ t2 pw
      = (⟨some (.phc pc salt0), some vsalt, ⟨2, some t2, none⟩⟩,
         .error .invalidPassphrase) :=
    vault_unlock_fail (check_locked_quiet (Or.inr ⟨t1, rfl, hr2⟩) rfl) rfl hwrong
  have hrf3 : record_failure ⟨2, some t2, none⟩ t3
      = ⟨3, some t3, some (t3 + RL_BASE_LOCKOUT_SECS)⟩ := by
    simp [record_failure, RL_MAX_ATTEMPTS, RL_BASE_LOCKOUT_SECS, RL_MAX_LOCKOUT_SECS]
  have s3 : vault_unlock ⟨some (.phc pc salt0), some vsalt, ⟨2, some t2, none⟩⟩ t3 pw
      = (⟨some (.phc pc salt0), some vsalt, ⟨3, some t3, some (t3 + RL_BASE_LOCKOUT_SECS)⟩⟩,
         .error .invalidPassphrase) := by
    have h := @vault_unlock_fail pc pw salt0
      ⟨some (.phc pc salt0), some vsalt, ⟨2, some t2, none⟩⟩ t3 _
      (check_locked_quiet (Or.inr ⟨t2, rfl, hr3⟩) rfl) rfl hwrong
    simpa [hrf3] using h
  refine ⟨?_, ?_, ?_, ?_, ?_, ?_⟩
  · simp only [vault_unlock_seq, s1, s2, s3]
  · simp only [vault_unlock_seq, s1, s2, s3]
  · intro st la T t p hlim hres hT
    rcases st with ⟨hashF, saltF, rlF⟩
    have hl : rlF = ⟨3, some la, some T⟩ := hlim
    subst hl
    exact vault_unlock_limited (check_locked_pending rfl hres rfl hT) p
  · exact fun rl now h => record_failure_cap rl now h
  · intro st la T t hhash hsalt hlim hres hTle
    rcases st with ⟨hashF, saltF, rlF⟩
    have hl : rlF = ⟨3, some la, some T⟩ := hlim
    subst hl
    exact vault_unlock_success
      (check_locked_expired rfl hres rfl (by omega)) hhash hsalt
  · intro st la T t hhash hlim hres
    rcases st with ⟨hashF, saltF, rlF⟩
    have hl : rlF = ⟨3, some la, some T⟩ := hlim
    subst hl
    exact vault_unlock_fail (check_locked_reset rfl hres) hhash hwrong

/-- Witness for C9 with three wrong attempts at seconds 0, 1 and 2. -/
theorem c9_witness :
    ("w" : String) ≠ "c" ∧ (0 : Nat) ≤ 1 ∧ (1 : Nat) ≤ 2
    ∧ ¬ RL_RESET_AFTER_SECS < 1 - 0 ∧ ¬ RL_RESET_AFTER_SECS < 2 - 1
    ∧ (vault_unlock_seq ⟨some (.phc "c" [1]), some [2], rl_new⟩
        [(0, "w"), (1, "w"), (2, "w")]).1.limiter
      = ⟨3, some 2, some (2 + RL_BASE_LOCKOUT_SECS)⟩ :=
  ⟨by decide, by decide, by decide, by decide, by decide,
   (c9_rate_limit_lockout "c" "w" (by decide) [1] [2] 0 1 2 (by decide) (by decide)
     (by decide) (by decide)).2.1⟩

/-! ## Lemmas: kernel resolution failure (C10) -/

theorem resolve_none {mounts : List (String × NsOps)} {path : String}
    (h : ∀ e ∈ mounts, is_path_under_mount path e.1 = false) :
    resolve mounts path = .error (.notFound path) := by
  have hfold : ∀ (l : List (String × NsOps)),
      (∀ e ∈ l, is_path_under_mount path e.1 = false) →
      l.foldl (fun best entry =>
        if is_path_under_mount path entry.1 then
          match best with
          | some cur =>
            if cur.1.utf8ByteSize < entry.1.utf8ByteSize then some entry else some cur
          | none => some entry
        else best)
        (none : Option (String × NsOps)) = none := by
    intro l
    induction l with
    | nil => intro _; rfl
    | cons e l ih =>
      intro hall
      rw [List.foldl_cons]
      rw [show (if is_path_under_mount path e.1 then
          match (none : Option (String × NsOps)) with
          | some cur =>
            if cur.1.utf8ByteSize < e.1.utf8ByteSize then some e else some cur
          | none => some e
        else none) = none from by rw [hall e (by simp)]; rfl]
      exact ih (fun e he => hall e (List.mem_cons_of_mem _ he))
  show (match mounts.foldl _ (none : Option (String × NsOps)) with
    | some (mount_path, ns) => _
    | none => Except.error (NsError.notFound path)) = _
  rw [hfold mounts h]

/-- C10: when no mounted namespace's mount path is a segment-boundary
prefix of the path (in particular on an empty mount table), resolution
and all five kernel operations fail with NotFound; there is no fallback
namespace. -/
theorem c10_kernel_not_found (mounts : List (String × NsOps)) (path : String)
    (h : ∀ e ∈ mounts, is_path_under_mount path e.1 = false) :
    resolve mounts path = .error (.notFound path)
    ∧ kernel_read mounts path = .error (.notFound path)
    ∧ (∀ data : JValue, kernel_write mounts path data = .error (.notFound path))
    ∧ (∀ scroll : Scroll, scroll.key = path →
        kernel_write_scroll mounts scroll = .error (.notFound path))
    ∧ kernel_list mounts path = .error (.notFound path)
    ∧ kernel_watch mounts path = .error (.notFound path) := by
  have hres := resolve_none h
  refine ⟨hres, ?_, ?_, ?_, ?_, ?_⟩
  · show (resolve mounts path >>= fun r => _) = _
    rw [hres]
    rfl
  · intro data
    show (resolve mounts path >>= fun r => _) = _
    rw [hres]
    rfl
  · intro scroll hkey
    show (resolve mounts scroll.key >>= fun r => _) = _
    rw [hkey, hres]
    rfl
  · show (resolve mounts path >>= fun r => _) = _
    rw [hres]
    rfl
  · show (resolve mounts path >>= fun r => _) = _
    rw [hres]
    rfl

/-- Witness for C10 on the empty mount table. -/
theorem c10_witness :
    kernel_read ([] : List (String × NsOps)) "/x" = .error (.notFound "/x") :=
  (c10_kernel_not_found [] "/x" (by simp)).2.1

/-- Witness for C2 at a concrete pair of one-field object states. -/
theorem c2_witness :
    wfJ (Scroll.new "/w" (JValue.obj [("a", JValue.num 1)])).data = true ∧
    ((∃ t, apply (Scroll.new "/w" (JValue.obj [("a", JValue.num 1)]))
        (diff_create (fun _ => "h") (fun _ => "") "/w"
          (some (Scroll.new "/w" (JValue.obj [("a", JValue.num 1)])))
          (Scroll.new "/w" (JValue.obj [("a", JValue.num 2), ("b", JValue.str "x")])) 7)
        = .ok t
        ∧ t.data = (Scroll.new "/w"
            (JValue.obj [("a", JValue.num 2), ("b", JValue.str "x")])).data)
      ∧ (∀ (ptr : String) (a b : List JValue), JValue.arr a ≠ JValue.arr b →
          compute_diff ptr (.arr a) (.arr b) = [PatchOp.replace ptr (.arr b)])) :=
  ⟨by simp [Scroll.new, wfJ, wfF, sortedK],
   c2_diff_apply_roundtrip _ _ _ _ _ _
     (by simp [Scroll.new, wfJ, wfF, sortedK])
     (by simp [Scroll.new, wfJ, wfF, sortedK, strLt, charListLt])⟩

end NineS
